import Mathlib

/-!
Histogram of reuse distances (`src/lib/histogram/histogram.c`), the generic
trace runner (`src/analysis/mrc/trace_runner.c`) and the trace printer
(`src/analysis/text/print_trace.c`).

Shallow embedding of `struct Histogram` and of the functions that mutate,
check and save it, of `trace_runner` as the sequence of calls it makes, and of
the `run` function of the trace printer as the records it decodes.

Conventions of the embedding:

* a C pointer that may be `NULL` is an `Option` (`none` is `NULL`);
* `uint64_t` values are natural numbers and every `uint64_t` operation of
  the source is followed by an explicit `% 2 ^ 64`;
* `int64_t` values are integers; a conversion from `uint64_t` and every
  signed operation of the source is brought back into the range
  `[-2^63, 2^63)` two's-complement style;
* a call that dereferences `NULL` or indexes the bin array outside of its
  allocation has no result (`none`); otherwise the result is the returned
  flag together with the object `me` points to after the call.
-/

namespace MRC

/-- Mirror of `struct Histogram` (histogram.h). The field `histogram` is the
heap array of bins, `none` when the pointer is `NULL`. -/
structure Histogram where
  histogram : Option (List Nat)
  num_bins : Nat
  bin_size : Nat
  false_infinity : Nat
  infinity : Nat
  running_sum : Nat
deriving DecidableEq, Repr

/-- Conversion `uint64_t -> int64_t` (two's complement). -/
def toInt64 (x : Nat) : Int :=
  if x % 2 ^ 64 < 2 ^ 63 then ((x % 2 ^ 64 : Nat) : Int)
  else ((x % 2 ^ 64 : Nat) : Int) - 2 ^ 64

/-- Conversion `int64_t -> uint64_t` (reduction modulo `2^64`). -/
def toUInt64 (z : Int) : Nat :=
  (z % 2 ^ 64).toNat

/-- Result of a signed 64-bit operation whose exact value is `z`. -/
def wrapInt64 (z : Int) : Int :=
  toInt64 (toUInt64 z)

/-- Embedding of `Histogram__init`. `calloc_ok` tells whether the `calloc`
call succeeds; the result is the returned flag and the object afterwards. -/
def Histogram__init (calloc_ok : Bool) (me : Option Histogram)
    (num_bins bin_size : Nat) : Bool × Option Histogram :=
  match me with
  | none => (false, none)
  | some m =>
    if num_bins = 0 then (false, some m)
    else if calloc_ok = false then (false, some { m with histogram := none })
    else
      (true, some { histogram := some (List.replicate num_bins 0)
                    num_bins := num_bins
                    bin_size := bin_size
                    infinity := 0
                    false_infinity := 0
                    running_sum := 0 })

/-- Embedding of `Histogram__insert_finite`. -/
def Histogram__insert_finite (me : Option Histogram) (index : Nat) :
    Option (Bool × Option Histogram) :=
  match me with
  | none => some (false, none)
  | some m =>
    match m.histogram with
    | none => some (false, some m)
    | some hist =>
      if m.bin_size = 0 then some (false, some m)
      else if index < (m.num_bins * m.bin_size) % 2 ^ 64 then
        match hist[index / m.bin_size]? with
        | none => none
        | some x =>
          some (true, some { m with
            histogram := some (hist.set (index / m.bin_size) ((x + 1) % 2 ^ 64))
            running_sum := (m.running_sum + 1) % 2 ^ 64 })
      else
        some (true, some { m with
          false_infinity := (m.false_infinity + 1) % 2 ^ 64
          running_sum := (m.running_sum + 1) % 2 ^ 64 })

/-- Embedding of `Histogram__insert_scaled_finite`. -/
def Histogram__insert_scaled_finite (me : Option Histogram) (index scale : Nat) :
    Option (Bool × Option Histogram) :=
  let scaled_index := (scale * index) % 2 ^ 64
  match me with
  | none => some (false, none)
  | some m =>
    match m.histogram with
    | none => some (false, some m)
    | some hist =>
      if m.bin_size = 0 then some (false, some m)
      else if scaled_index < (m.num_bins * m.bin_size) % 2 ^ 64 then
        match hist[scaled_index / m.bin_size]? with
        | none => none
        | some x =>
          some (true, some { m with
            histogram :=
              some (hist.set (scaled_index / m.bin_size) ((x + scale) % 2 ^ 64))
            running_sum := (m.running_sum + scale) % 2 ^ 64 })
      else
        some (true, some { m with
          false_infinity := (m.false_infinity + scale) % 2 ^ 64
          running_sum := (m.running_sum + scale) % 2 ^ 64 })

/-- Embedding of `Histogram__insert_infinite`. -/
def Histogram__insert_infinite (me : Option Histogram) :
    Option (Bool × Option Histogram) :=
  match me with
  | none => some (false, none)
  | some m =>
    match m.histogram with
    | none => some (false, some m)
    | some _ =>
      some (true, some { m with
        infinity := (m.infinity + 1) % 2 ^ 64
        running_sum := (m.running_sum + 1) % 2 ^ 64 })

/-- Embedding of `Histogram__insert_scaled_infinite`. -/
def Histogram__insert_scaled_infinite (me : Option Histogram) (scale : Nat) :
    Option (Bool × Option Histogram) :=
  match me with
  | none => some (false, none)
  | some m =>
    match m.histogram with
    | none => some (false, some m)
    | some _ =>
      some (true, some { m with
        infinity := (m.infinity + scale) % 2 ^ 64
        running_sum := (m.running_sum + scale) % 2 ^ 64 })

/-- The `for` loop of `Histogram__adjust_first_buckets`: `n` is the number of
iterations left (`num_bins - i`), `hist` the bin array, `tmp_adj` the residual.
Returns the array and the residual when the loop is left. -/
def adjust_loop : Nat → Nat → List Nat → Int → Option (List Nat × Int)
  | 0, _, hist, tmp_adj => some (hist, tmp_adj)
  | n + 1, i, hist, tmp_adj =>
    match hist[i]? with
    | none => none
    | some x =>
      let h := toInt64 x
      if wrapInt64 (toInt64 x + tmp_adj) < 0 then
        adjust_loop n (i + 1) (hist.set i 0) (wrapInt64 (tmp_adj + h))
      else
        some (hist.set i ((x + toUInt64 tmp_adj) % 2 ^ 64), 0)

/-- Embedding of `Histogram__adjust_first_buckets`. The source does not test
`me->histogram` against `NULL`, so a `NULL` array is dereferenced. -/
def Histogram__adjust_first_buckets (me : Option Histogram) (adjustment : Int) :
    Option (Bool × Option Histogram) :=
  match me with
  | none => some (false, none)
  | some m =>
    if m.num_bins < 1 ∨ m.bin_size < 1 then some (false, some m)
    else
      match m.histogram with
      | none => none
      | some hist =>
        match adjust_loop m.num_bins 0 hist adjustment with
        | none => none
        | some (hist', tmp_adj) =>
          let m' : Histogram := { m with
            histogram := some hist'
            running_sum :=
              (m.running_sum + toUInt64 (wrapInt64 (adjustment - tmp_adj))) % 2 ^ 64 }
          if tmp_adj ≠ 0 then some (false, some m') else some (true, some m')

/-- The summing loop of `Histogram__validate`: `n` iterations left, next
index `i`, accumulator `sum`. -/
def validate_loop : Nat → Nat → List Nat → Nat → Option Nat
  | 0, _, _, sum => some sum
  | n + 1, i, hist, sum =>
    match hist[i]? with
    | none => none
    | some x => validate_loop n (i + 1) hist ((sum + x) % 2 ^ 64)

/-- Embedding of `Histogram__validate` (the object is not modified). -/
def Histogram__validate (me : Option Histogram) : Option Bool :=
  match me with
  | none => some false
  | some m =>
    if m.histogram = none ∧ m.num_bins ≠ 0 then some false
    else if m.num_bins = 0 ∨ m.bin_size = 0 then some true
    else
      match m.histogram with
      | none => none
      | some hist =>
        match validate_loop m.num_bins 0 hist 0 with
        | none => none
        | some sum =>
          let sum1 := (sum + m.false_infinity) % 2 ^ 64
          let sum2 := (sum1 + m.infinity) % 2 ^ 64
          if sum2 ≠ m.running_sum then some false else some true

/-- List-recursive presentation of the loop of
`Histogram__adjust_first_buckets` on the bins that are still to be visited;
`adjust_loop_eq` shows that the index-based loop computes it. -/
def adjust_bins : List Nat → Int → List Nat × Int
  | [], tmp_adj => ([], tmp_adj)
  | x :: xs, tmp_adj =>
    if wrapInt64 (toInt64 x + tmp_adj) < 0 then
      (0 :: (adjust_bins xs (wrapInt64 (tmp_adj + toInt64 x))).1,
        (adjust_bins xs (wrapInt64 (tmp_adj + toInt64 x))).2)
    else
      ((x + toUInt64 tmp_adj) % 2 ^ 64 :: xs, 0)

/-- The bins of a histogram (no bins when the array pointer is `NULL`). -/
def Histogram.bins (m : Histogram) : List Nat :=
  m.histogram.getD []

/-- An initialised histogram: the bin array is allocated and has `num_bins`
entries. -/
def Histogram.Initialised (m : Histogram) : Prop :=
  m.histogram.isSome = true ∧ m.bins.length = m.num_bins

instance (m : Histogram) : Decidable m.Initialised := by
  unfold Histogram.Initialised; infer_instance

/-- The running-sum relation, all sums taken in 64-bit unsigned arithmetic:
`running_sum == sum(bins) + false_infinity + infinity`. -/
def Histogram.RunningSum (m : Histogram) : Prop :=
  m.running_sum = (m.bins.sum + m.false_infinity + m.infinity) % 2 ^ 64

instance (m : Histogram) : Decidable m.RunningSum := by
  unfold Histogram.RunningSum; infer_instance

/-- The mutating operations of the histogram, with their arguments. -/
inductive Op where
  | insert_finite (index : Nat)
  | insert_scaled_finite (index scale : Nat)
  | insert_infinite
  | insert_scaled_infinite (scale : Nat)
  | adjust_first_buckets (adjustment : Int)
deriving DecidableEq, Repr

/-- One call of the operation `op` on the object `me` points to. -/
def Op.call (me : Option Histogram) : Op → Option (Bool × Option Histogram)
  | .insert_finite index => Histogram__insert_finite me index
  | .insert_scaled_finite index scale => Histogram__insert_scaled_finite me index scale
  | .insert_infinite => Histogram__insert_infinite me
  | .insert_scaled_infinite scale => Histogram__insert_scaled_infinite me scale
  | .adjust_first_buckets adjustment => Histogram__adjust_first_buckets me adjustment

/-- A sequence of calls on the same object, one after the other, whatever
each call returns; `none` when a call has no result. -/
def run_ops (me : Option Histogram) : List Op → Option (Option Histogram)
  | [] => some me
  | op :: ops =>
    match op.call me with
    | none => none
    | some (_, me') => run_ops me' ops

/-- The histogram call made for one access: `some d` is a reuse of finite
distance `d` (`Histogram__insert_finite`), `none` a cold miss
(`Histogram__insert_infinite`). -/
def access_op : Option Nat → Op
  | some d => .insert_finite d
  | none => .insert_infinite

/-- Whether an access is a reuse whose distance lies in `[lo, hi)`. -/
def distance_in (lo hi : Nat) : Option Nat → Bool
  | some d => decide (lo ≤ d) && decide (d < hi)
  | none => false

/-- Whether an access is a reuse whose distance is at least `lo`. -/
def distance_ge (lo : Nat) : Option Nat → Bool
  | some d => decide (lo ≤ d)
  | none => false

/-- The histogram `m`, with `nb` bins of size `bs`, counts the accesses of
`trace`: bin `i` holds the number of reuses with distance in
`[i * bs, (i + 1) * bs)`, `false_infinity` the number of reuses with distance
at least `nb * bs`, `infinity` the number of cold misses and `running_sum` the
number of accesses. -/
def Histogram.Counts (nb bs : Nat) (m : Histogram) (trace : List (Option Nat)) : Prop :=
  ∃ hist, m.histogram = some hist ∧ hist.length = nb ∧ m.num_bins = nb ∧ m.bin_size = bs ∧
    (∀ i, i < nb → hist[i]? = some (trace.countP (distance_in (i * bs) ((i + 1) * bs)))) ∧
    m.false_infinity = trace.countP (distance_ge (nb * bs)) ∧
    m.infinity = trace.countP Option.isNone ∧
    m.running_sum = trace.length

/-- Outcome of the stdio calls made by `Histogram__save_sparse`: whether
`fopen` returns a stream, whether the `fwrite` made after `n` items have been
written writes its item, and whether `fclose` returns 0. -/
structure FileEnv where
  fopen_ok : Bool
  fwrite_ok : Nat → Bool
  fclose_ok : Bool

/-- Embedding of `write_index_miss_rate_pair`. `out` is the sequence of 64-bit
items written to the stream so far; a `fwrite` that fails writes nothing. As a
failed `fwrite` ends the save, the number of earlier `fwrite` calls is
`out.length`. Returns the flag and the items written afterwards. -/
def write_index_miss_rate_pair (env : FileEnv) (out : List Nat)
    (index bin_size frequency : Nat) : Bool × List Nat :=
  let scaled_idx := (index * bin_size) % 2 ^ 64
  if env.fwrite_ok out.length = false then (false, out)
  else if env.fwrite_ok (out ++ [scaled_idx]).length = false then
    (false, out ++ [scaled_idx])
  else (true, out ++ [scaled_idx] ++ [frequency])

/-- The `for` loop of `Histogram__save_sparse`: `n` iterations left, next index
`i`. The flag is false when the loop is left through `goto cleanup`. -/
def save_sparse_loop (env : FileEnv) (bin_size : Nat) :
    Nat → Nat → List Nat → List Nat → Option (Bool × List Nat)
  | 0, _, _, out => some (true, out)
  | n + 1, i, hist, out =>
    match hist[i]? with
    | none => none
    | some x =>
      if x = 0 then save_sparse_loop env bin_size n (i + 1) hist out
      else
        match write_index_miss_rate_pair env out i bin_size x with
        | (false, out') => some (false, out')
        | (true, out') => save_sparse_loop env bin_size n (i + 1) hist out'

/-- Embedding of `Histogram__save_sparse`: the returned flag and the items
written to the file. The result of `fopen` is not tested by the source, so a
`NULL` stream reaches `fwrite` or `fclose`: no result. -/
def Histogram__save_sparse (env : FileEnv) (me : Option Histogram) :
    Option (Bool × List Nat) :=
  match me with
  | none => some (false, [])
  | some m =>
    match m.histogram with
    | none => some (false, [])
    | some hist =>
      if m.num_bins = 0 then some (false, [])
      else if env.fopen_ok = false then none
      else
        match save_sparse_loop env m.bin_size m.num_bins 0 hist [] with
        | none => none
        | some (true, out) => if env.fclose_ok = false then some (false, out) else some (true, out)
        | some (false, out) => some (false, out)

/-- Reading of a sparse histogram file: the successive `(u64, u64)` records
of a sequence of 64-bit items. -/
def records : List Nat → List (Nat × Nat)
  | a :: b :: rest => (a, b) :: records rest
  | _ => []

/-- List-recursive presentation of what the loop of `Histogram__save_sparse`
writes for the bins from index `i` on when every `fwrite` succeeds. -/
def sparse_items (bin_size : Nat) : Nat → List Nat → List Nat
  | _, [] => []
  | i, x :: xs =>
    if x = 0 then sparse_items bin_size (i + 1) xs
    else (i * bin_size) % 2 ^ 64 :: x :: sparse_items bin_size (i + 1) xs

/-- A stdio environment in which every call succeeds. -/
def FileEnv.all_ok : FileEnv :=
  { fopen_ok := true, fwrite_ok := fun _ => true, fclose_ok := true }

/-- The part of a trace record that `trace_runner` reads: its key. -/
structure TraceItem where
  key : Nat
deriving DecidableEq, Repr

/-- The fields of `struct RunnerArguments` that `trace_runner` reads outside
of its log messages: the two output paths (`none` is `NULL`). -/
structure RunnerArguments where
  hist_path : Option String
  mrc_path : Option String
deriving DecidableEq, Repr

/-- Everything `trace_runner` calls: the four estimator callbacks it is handed
and the library functions it calls itself, whose code is not in
trace_runner.c. They act on a state `ω` standing for the memory they work on
(the estimator behind `runner_data`, the histogram it lends, the local
miss-rate curve, the output files); `trace_runner` reaches that state through
these functions only. Each returns its C return value and the state after the
call. -/
structure RunnerCalls (ω : Type) where
  access_func : ω → Nat → Bool × ω
  postprocess_func : ω → Bool × ω
  hist_func : ω → Bool × ω
  destroy_func : ω → ω
  MissRateCurve__init_from_histogram : ω → Bool × ω
  Histogram__save : ω → String → Bool × ω
  MissRateCurve__save : ω → String → Bool × ω
  MissRateCurve__destroy : ω → ω

/-- The first loop of `trace_runner`: `access_func` is called on the key of
each record of the trace, in order, the returned flag being ignored. -/
def access_loop {ω : Type} (c : RunnerCalls ω) : List TraceItem → ω → ω
  | [], s => s
  | item :: rest, s => access_loop c rest (c.access_func s item.key).2

/-- Embedding of `trace_runner` (timing and logging left out): the returned
flag and the state after the call. -/
def trace_runner {ω : Type} (c : RunnerCalls ω) (args : RunnerArguments)
    (runner_data : ω) (trace : List TraceItem) : Bool × ω :=
  let s1 := access_loop c trace runner_data
  let s2 := (c.postprocess_func s1).2
  let h := c.hist_func s2
  if h.1 = false then
    (false, c.MissRateCurve__destroy (c.destroy_func h.2))
  else
    let i := c.MissRateCurve__init_from_histogram h.2
    if i.1 = false then
      (false, c.MissRateCurve__destroy (c.destroy_func i.2))
    else
      let s3 :=
        match args.hist_path with
        | none => i.2
        | some path => (c.Histogram__save i.2 path).2
      let s4 :=
        match args.mrc_path with
        | none => s3
        | some path => (c.MissRateCurve__save s3 path).2
      (true, c.MissRateCurve__destroy (c.destroy_func s4))

/-- A call made by `trace_runner`, with the value it returned. -/
inductive Event where
  | access (key : Nat) (ret : Bool)
  | postprocess (ret : Bool)
  | hist (ret : Bool)
  | mrc_init (ret : Bool)
  | hist_save (ret : Bool)
  | mrc_save (ret : Bool)
  | destroy
  | mrc_destroy
deriving DecidableEq, Repr

/-- A call of one of the four estimator callbacks. -/
inductive EstimatorCall where
  | access (key : Nat)
  | postprocess
  | hist
  | destroy
deriving DecidableEq, Repr

/-- The estimator callback an event is a call of, if any. -/
def Event.estimator_call : Event → Option EstimatorCall
  | .access key _ => some (.access key)
  | .postprocess _ => some .postprocess
  | .hist _ => some .hist
  | .destroy => some .destroy
  | _ => none

/-- The same callbacks and library functions, each of which also appends its
own call, with the value it returns, to a journal kept next to the state. The
journal of a run of `trace_runner` on them is the sequence of calls that run
really made. -/
def RunnerCalls.recorded {ω : Type} (c : RunnerCalls ω) : RunnerCalls (ω × List Event) where
  access_func := fun s key =>
    ((c.access_func s.1 key).1,
      ((c.access_func s.1 key).2, s.2 ++ [Event.access key (c.access_func s.1 key).1]))
  postprocess_func := fun s =>
    ((c.postprocess_func s.1).1,
      ((c.postprocess_func s.1).2, s.2 ++ [Event.postprocess (c.postprocess_func s.1).1]))
  hist_func := fun s =>
    ((c.hist_func s.1).1, ((c.hist_func s.1).2, s.2 ++ [Event.hist (c.hist_func s.1).1]))
  destroy_func := fun s => (c.destroy_func s.1, s.2 ++ [Event.destroy])
  MissRateCurve__init_from_histogram := fun s =>
    ((c.MissRateCurve__init_from_histogram s.1).1,
      ((c.MissRateCurve__init_from_histogram s.1).2,
        s.2 ++ [Event.mrc_init (c.MissRateCurve__init_from_histogram s.1).1]))
  Histogram__save := fun s path =>
    ((c.Histogram__save s.1 path).1,
      ((c.Histogram__save s.1 path).2,
        s.2 ++ [Event.hist_save (c.Histogram__save s.1 path).1]))
  MissRateCurve__save := fun s path =>
    ((c.MissRateCurve__save s.1 path).1,
      ((c.MissRateCurve__save s.1 path).2,
        s.2 ++ [Event.mrc_save (c.MissRateCurve__save s.1 path).1]))
  MissRateCurve__destroy := fun s => (c.MissRateCurve__destroy s.1, s.2 ++ [Event.mrc_destroy])

/-- The fields of `struct CommandLineArguments` (print_trace.c) that `run`
computes with: `start` and `length`, both `gint64`. -/
structure CommandLineArguments where
  start : Int
  length : Int
deriving DecidableEq, Repr

/-- What a call of `run` (print_trace.c) does: the returned flag, whether the
range check logged its error, and the indices of the records decoded and
printed, in order. -/
structure RunResult where
  ret : Bool
  range_error_logged : Bool
  decoded : List Nat
deriving DecidableEq, Repr

/-- The printing loop of `run`: `n` iterations left (`end - i`), next record
index `i`. -/
def print_loop : Nat → Nat → List Nat
  | 0, _ => []
  | n + 1, i => i :: print_loop n (i + 1)

/-- Embedding of `run` (print_trace.c). `bytes_per_trace_item` is the value of
`get_bytes_per_trace_item(args->trace_format)` and `mmap_bytes` the size of the
mapped file, `none` when `MemoryMap__init` fails. Record `i` is decoded from
the bytes at offset `i * bytes_per_trace_item` of the mapping. -/
def run (args : Option CommandLineArguments) (bytes_per_trace_item : Nat)
    (mmap_bytes : Option Nat) : RunResult :=
  match args with
  | none => ⟨false, false, []⟩
  | some a =>
    if bytes_per_trace_item = 0 then ⟨false, false, []⟩
    else
      match mmap_bytes with
      | none => ⟨false, false, []⟩
      | some num_bytes =>
        let num_entries := num_bytes / bytes_per_trace_item
        let start := toUInt64 a.start
        let length := toUInt64 a.length
        let end_ := toUInt64 (wrapInt64 (a.start + a.length))
        let range_error :=
          decide (start ≥ num_entries ∨ (start + length) % 2 ^ 64 > num_entries)
        ⟨true, range_error, print_loop (end_ - start) start⟩

/-- The scaled index `i * bin_size` of every nonzero bin `i` fits in 64 bits,
and a bin is nonzero only when `bin_size` is positive. -/
def ScaledIndicesFit (bin_size : Nat) (hist : List Nat) : Prop :=
  ∀ p ∈ hist.enum, p.2 ≠ 0 → 0 < bin_size ∧ p.1 * bin_size < 2 ^ 64

instance (bin_size : Nat) (hist : List Nat) : Decidable (ScaledIndicesFit bin_size hist) := by
  unfold ScaledIndicesFit; infer_instance

/-! ## Inserts -/

/-- Position written by the bin branch of either insert is inside the array:
an index below the (wrapped) product `num_bins * bin_size` divided by
`bin_size` is below `num_bins`. -/
theorem div_lt_num_bins {index num_bins bin_size : Nat}
    (h : index < (num_bins * bin_size) % 2 ^ 64) : index / bin_size < num_bins := by
  have h1 : index < num_bins * bin_size := lt_of_lt_of_le h (Nat.mod_le _ _)
  rcases Nat.eq_zero_or_pos bin_size with hb | hb
  · subst hb; simp at h1
  · exact (Nat.div_lt_iff_lt_mul hb).2 h1

/-- Evaluation of `Histogram__insert_finite` on an initialised histogram with
`bin_size > 0`, in each of its two branches. -/
theorem insert_finite_eval (m : Histogram) (hist : List Nat) (index : Nat)
    (hh : m.histogram = some hist) (hl : hist.length = m.num_bins)
    (hb : 0 < m.bin_size) :
    (index < (m.num_bins * m.bin_size) % 2 ^ 64 →
      ∃ x, hist[index / m.bin_size]? = some x ∧
        Histogram__insert_finite (some m) index =
          some (true, some { m with
            histogram := some (hist.set (index / m.bin_size) ((x + 1) % 2 ^ 64))
            running_sum := (m.running_sum + 1) % 2 ^ 64 })) ∧
    (¬ index < (m.num_bins * m.bin_size) % 2 ^ 64 →
      Histogram__insert_finite (some m) index =
        some (true, some { m with
          false_infinity := (m.false_infinity + 1) % 2 ^ 64
          running_sum := (m.running_sum + 1) % 2 ^ 64 })) := by
  have hb0 : m.bin_size ≠ 0 := Nat.pos_iff_ne_zero.1 hb
  refine ⟨fun hlt => ?_, fun hge => ?_⟩
  · have hk : index / m.bin_size < hist.length := hl ▸ div_lt_num_bins hlt
    refine ⟨hist[index / m.bin_size], List.getElem?_eq_getElem hk, ?_⟩
    simp only [Histogram__insert_finite, hh, if_neg hb0, if_pos hlt,
      List.getElem?_eq_getElem hk]
  · simp only [Histogram__insert_finite, hh, if_neg hb0, if_neg hge]

/-- Evaluation of `Histogram__insert_scaled_finite` on an initialised
histogram with `bin_size > 0`, in each of its two branches. -/
theorem insert_scaled_finite_eval (m : Histogram) (hist : List Nat)
    (index scale : Nat)
    (hh : m.histogram = some hist) (hl : hist.length = m.num_bins)
    (hb : 0 < m.bin_size) :
    ((scale * index) % 2 ^ 64 < (m.num_bins * m.bin_size) % 2 ^ 64 →
      ∃ x, hist[(scale * index) % 2 ^ 64 / m.bin_size]? = some x ∧
        Histogram__insert_scaled_finite (some m) index scale =
          some (true, some { m with
            histogram := some
              (hist.set ((scale * index) % 2 ^ 64 / m.bin_size) ((x + scale) % 2 ^ 64))
            running_sum := (m.running_sum + scale) % 2 ^ 64 })) ∧
    (¬ (scale * index) % 2 ^ 64 < (m.num_bins * m.bin_size) % 2 ^ 64 →
      Histogram__insert_scaled_finite (some m) index scale =
        some (true, some { m with
          false_infinity := (m.false_infinity + scale) % 2 ^ 64
          running_sum := (m.running_sum + scale) % 2 ^ 64 })) := by
  have hb0 : m.bin_size ≠ 0 := Nat.pos_iff_ne_zero.1 hb
  refine ⟨fun hlt => ?_, fun hge => ?_⟩
  · have hk : (scale * index) % 2 ^ 64 / m.bin_size < hist.length :=
      hl ▸ div_lt_num_bins hlt
    refine ⟨hist[(scale * index) % 2 ^ 64 / m.bin_size], List.getElem?_eq_getElem hk, ?_⟩
    simp only [Histogram__insert_scaled_finite, hh, if_neg hb0, if_pos hlt,
      List.getElem?_eq_getElem hk]
  · simp only [Histogram__insert_scaled_finite, hh, if_neg hb0, if_neg hge]

/-- Evaluation of `Histogram__insert_infinite` and of
`Histogram__insert_scaled_infinite` on a histogram whose array is allocated. -/
theorem insert_infinite_eval (m : Histogram) (hist : List Nat) (scale : Nat)
    (hh : m.histogram = some hist) :
    Histogram__insert_infinite (some m) =
      some (true, some { m with
        infinity := (m.infinity + 1) % 2 ^ 64
        running_sum := (m.running_sum + 1) % 2 ^ 64 }) ∧
    Histogram__insert_scaled_infinite (some m) scale =
      some (true, some { m with
        infinity := (m.infinity + scale) % 2 ^ 64
        running_sum := (m.running_sum + scale) % 2 ^ 64 }) := by
  constructor
  · simp only [Histogram__insert_infinite, hh]
  · simp only [Histogram__insert_scaled_infinite, hh]

/-- C2 (as amended). For an initialised histogram (`histogram` allocated with
`num_bins` entries) with `bin_size > 0`, `Histogram__insert_finite` returns
true; when `index` is below `num_bins * bin_size` taken modulo `2^64` it
replaces bin `index / bin_size` (which exists) by its value plus one and adds
one to `running_sum`, otherwise it adds one to `false_infinity` and to
`running_sum` (64-bit additions); every other field and bin is untouched. When
the product does not overflow the threshold is `num_bins * bin_size` itself. -/
theorem insert_finite_spec (m : Histogram) (hist : List Nat) (index : Nat)
    (hh : m.histogram = some hist) (hl : hist.length = m.num_bins)
    (hb : 0 < m.bin_size) :
    (index < (m.num_bins * m.bin_size) % 2 ^ 64 →
      ∃ x, hist[index / m.bin_size]? = some x ∧
        Histogram__insert_finite (some m) index =
          some (true, some { m with
            histogram := some (hist.set (index / m.bin_size) ((x + 1) % 2 ^ 64))
            running_sum := (m.running_sum + 1) % 2 ^ 64 })) ∧
    (¬ index < (m.num_bins * m.bin_size) % 2 ^ 64 →
      Histogram__insert_finite (some m) index =
        some (true, some { m with
          false_infinity := (m.false_infinity + 1) % 2 ^ 64
          running_sum := (m.running_sum + 1) % 2 ^ 64 })) ∧
    (m.num_bins * m.bin_size < 2 ^ 64 →
      (index < (m.num_bins * m.bin_size) % 2 ^ 64 ↔ index < m.num_bins * m.bin_size)) := by
  obtain ⟨h1, h2⟩ := insert_finite_eval m hist index hh hl hb
  exact ⟨h1, h2, fun hp => by rw [Nat.mod_eq_of_lt hp]⟩

/-- Witness for C2: on a fresh 4-bin histogram of bin size 1,
index 5 is outside of the bins and goes to `false_infinity`. -/
theorem insert_finite_spec_witness :
    Histogram__insert_finite (some ⟨some [0, 0, 0, 0], 4, 1, 0, 0, 0⟩) 5 =
      some (true, some ⟨some [0, 0, 0, 0], 4, 1, 1, 0, 1⟩) :=
  (insert_finite_spec ⟨some [0, 0, 0, 0], 4, 1, 0, 0, 0⟩ [0, 0, 0, 0] 5 rfl rfl
    (by decide)).2.1 (by decide)

/-- C2 (counterexample to the claim as stated). With `num_bins = 2` and
`bin_size = 2^63` the index 0 is below `num_bins * bin_size = 2^64`, yet the
call leaves both bins at 0 and counts the access in `false_infinity`, instead
of adding one to bin `0 / bin_size = 0`: the source compares with the 64-bit
product, which is 0. -/
theorem insert_finite_product_overflow :
    (0 : Nat) < 2 * 2 ^ 63 ∧
    Histogram__insert_finite (some ⟨some [0, 0], 2, 2 ^ 63, 0, 0, 0⟩) 0 =
      some (true, some ⟨some [0, 0], 2, 2 ^ 63, 1, 0, 1⟩) ∧
    Histogram__insert_finite (some ⟨some [0, 0], 2, 2 ^ 63, 0, 0, 0⟩) 0 ≠
      some (true, some ⟨some [1, 0], 2, 2 ^ 63, 0, 0, 1⟩) := by
  decide

/-- C3 (as amended). For an initialised histogram with `bin_size > 0`,
`Histogram__insert_scaled_finite` returns true and works on the scaled index
`scale * index` (64-bit product): when it is below `num_bins * bin_size`
(64-bit product) the bin `(scale * index mod 2^64) / bin_size` (which exists)
and `running_sum` grow by `scale`, otherwise `false_infinity` and
`running_sum` grow by `scale` (64-bit additions); nothing else changes. -/
theorem insert_scaled_finite_spec (m : Histogram) (hist : List Nat)
    (index scale : Nat)
    (hh : m.histogram = some hist) (hl : hist.length = m.num_bins)
    (hb : 0 < m.bin_size) :
    ((scale * index) % 2 ^ 64 < (m.num_bins * m.bin_size) % 2 ^ 64 →
      ∃ x, hist[(scale * index) % 2 ^ 64 / m.bin_size]? = some x ∧
        Histogram__insert_scaled_finite (some m) index scale =
          some (true, some { m with
            histogram := some
              (hist.set ((scale * index) % 2 ^ 64 / m.bin_size) ((x + scale) % 2 ^ 64))
            running_sum := (m.running_sum + scale) % 2 ^ 64 })) ∧
    (¬ (scale * index) % 2 ^ 64 < (m.num_bins * m.bin_size) % 2 ^ 64 →
      Histogram__insert_scaled_finite (some m) index scale =
        some (true, some { m with
          false_infinity := (m.false_infinity + scale) % 2 ^ 64
          running_sum := (m.running_sum + scale) % 2 ^ 64 })) :=
  insert_scaled_finite_eval m hist index scale hh hl hb

/-- Witness for C3: index 3 with scale 2 on a 4-bin
histogram of bin size 1 has scaled index 6 and goes to `false_infinity`. -/
theorem insert_scaled_finite_spec_witness :
    Histogram__insert_scaled_finite (some ⟨some [0, 0, 0, 0], 4, 1, 0, 0, 0⟩) 3 2 =
      some (true, some ⟨some [0, 0, 0, 0], 4, 1, 2, 0, 2⟩) :=
  (insert_scaled_finite_spec ⟨some [0, 0, 0, 0], 4, 1, 0, 0, 0⟩ [0, 0, 0, 0] 3 2 rfl rfl
    (by decide)).2 (by decide)

/-- C3 (counterexample to the claim as stated). On a fresh 4-bin histogram of
bin size 1, inserting index 1 with scale 2 adds 2 to bin 2 (the scaled index),
not to bin `1 / 1 = 1`; and index 3 with scale 2, although `3 < 4 * 1`, is
counted in `false_infinity`. -/
theorem insert_scaled_finite_uses_scaled_index :
    (1 : Nat) < 4 * 1 ∧
    Histogram__insert_scaled_finite (some ⟨some [0, 0, 0, 0], 4, 1, 0, 0, 0⟩) 1 2 =
      some (true, some ⟨some [0, 0, 2, 0], 4, 1, 0, 0, 2⟩) ∧
    Histogram__insert_scaled_finite (some ⟨some [0, 0, 0, 0], 4, 1, 0, 0, 0⟩) 1 2 ≠
      some (true, some ⟨some [0, 2, 0, 0], 4, 1, 0, 0, 2⟩) ∧
    (3 : Nat) < 4 * 1 ∧
    Histogram__insert_scaled_finite (some ⟨some [0, 0, 0, 0], 4, 1, 0, 0, 0⟩) 3 2 =
      some (true, some ⟨some [0, 0, 0, 0], 4, 1, 2, 0, 2⟩) := by
  decide

/-- C5. For an initialised histogram, `Histogram__insert_infinite` adds 1 and
`Histogram__insert_scaled_infinite` adds `scale` to `infinity` and to
`running_sum` (64-bit additions), both return true, and the bins,
`false_infinity`, `num_bins` and `bin_size` are unchanged. -/
theorem insert_infinite_spec (m : Histogram) (hist : List Nat) (scale : Nat)
    (hh : m.histogram = some hist) :
    Histogram__insert_infinite (some m) =
      some (true, some { m with
        infinity := (m.infinity + 1) % 2 ^ 64
        running_sum := (m.running_sum + 1) % 2 ^ 64 }) ∧
    Histogram__insert_scaled_infinite (some m) scale =
      some (true, some { m with
        infinity := (m.infinity + scale) % 2 ^ 64
        running_sum := (m.running_sum + scale) % 2 ^ 64 }) :=
  insert_infinite_eval m hist scale hh

/-- Witness for C5 on a histogram holding three accesses. -/
theorem insert_infinite_spec_witness :
    Histogram__insert_infinite (some ⟨some [2, 0], 2, 1, 1, 0, 3⟩) =
      some (true, some ⟨some [2, 0], 2, 1, 1, 1, 4⟩) ∧
    Histogram__insert_scaled_infinite (some ⟨some [2, 0], 2, 1, 1, 0, 3⟩) 5 =
      some (true, some ⟨some [2, 0], 2, 1, 1, 5, 8⟩) :=
  insert_infinite_spec ⟨some [2, 0], 2, 1, 1, 0, 3⟩ [2, 0] 5 rfl

theorem toInt64_emod (x : Nat) : toInt64 x % 2 ^ 64 = (x : Int) % 2 ^ 64 := by
  unfold toInt64
  split <;> omega

theorem toUInt64_cast (z : Int) : ((toUInt64 z : Nat) : Int) = z % 2 ^ 64 := by
  unfold toUInt64
  omega

theorem wrapInt64_emod (z : Int) : wrapInt64 z % 2 ^ 64 = z % 2 ^ 64 := by
  unfold wrapInt64
  rw [toInt64_emod, toUInt64_cast]
  omega

theorem toInt64_of_lt {x : Nat} (h : x < 2 ^ 63) : toInt64 x = (x : Int) := by
  unfold toInt64
  split <;> omega

theorem wrapInt64_of_range {z : Int} (h1 : -2 ^ 63 ≤ z) (h2 : z < 2 ^ 63) :
    wrapInt64 z = z := by
  have hc := toUInt64_cast z
  unfold wrapInt64 toInt64
  split <;> omega

/-! ## The adjustment loop -/

theorem getElem?_append_cons_length (pre : List Nat) (x : Nat) (xs : List Nat) :
    (pre ++ x :: xs)[pre.length]? = some x := by
  rw [List.getElem?_append_right (Nat.le_refl _)]
  simp

theorem set_append_cons_length (pre : List Nat) (x v : Nat) (xs : List Nat) :
    (pre ++ x :: xs).set pre.length v = pre ++ v :: xs := by
  simp

/-- The index-based loop of `Histogram__adjust_first_buckets`, started at
index `pre.length` with as many iterations left as there are bins from there
on, never leaves the array and computes `adjust_bins` on those bins. -/
theorem adjust_loop_eq (suf pre : List Nat) (t : Int) :
    adjust_loop suf.length pre.length (pre ++ suf) t =
      some (pre ++ (adjust_bins suf t).1, (adjust_bins suf t).2) := by
  induction suf generalizing pre t with
  | nil => simp [adjust_loop, adjust_bins]
  | cons x xs ih =>
    simp only [List.length_cons, adjust_loop, getElem?_append_cons_length,
      set_append_cons_length, adjust_bins]
    split
    · have := ih (pre ++ [0]) (wrapInt64 (t + toInt64 x))
      simp only [List.length_append, List.length_singleton, List.append_assoc,
        List.singleton_append] at this
      exact this
    · rfl

theorem adjust_bins_length (l : List Nat) (t : Int) :
    (adjust_bins l t).1.length = l.length := by
  induction l generalizing t with
  | nil => rfl
  | cons x xs ih =>
    simp only [adjust_bins]
    split <;> simp [ih]

/-- The loop moves counts between the bins and the residual: the total of the
bins plus the residual is the same modulo `2^64` before and after. -/
theorem adjust_bins_sum (l : List Nat) (t : Int) :
    (((adjust_bins l t).1.sum : Nat) + (adjust_bins l t).2) % 2 ^ 64 =
      ((l.sum : Nat) + t) % 2 ^ 64 := by
  induction l generalizing t with
  | nil => rfl
  | cons x xs ih =>
    simp only [adjust_bins]
    split
    · have h1 := ih (wrapInt64 (t + toInt64 x))
      have h2 := wrapInt64_emod (t + toInt64 x)
      have h3 := toInt64_emod x
      simp only [List.sum_cons, Nat.cast_add, Nat.cast_zero] at *
      omega
    · have h3 := toUInt64_cast t
      simp only [List.sum_cons, Nat.cast_add]
      omega

/-! ## The running-sum invariant -/

theorem sum_set_add (l : List Nat) (k v x : Nat) (h : l[k]? = some x) :
    (l.set k v).sum + x = l.sum + v := by
  induction l generalizing k with
  | nil => simp at h
  | cons a l ih =>
    cases k with
    | zero =>
      simp only [List.getElem?_cons_zero, Option.some.injEq] at h
      simp only [List.set_cons_zero, List.sum_cons]
      omega
    | succ k =>
      simp only [List.getElem?_cons_succ] at h
      have := ih k h
      simp only [List.set_cons_succ, List.sum_cons]
      omega

/-- The summing loop of `Histogram__validate`, started at index `pre.length`
with as many iterations left as there are bins from there on, stays inside
the array and adds those bins to the accumulator modulo `2^64`. -/
theorem validate_loop_eq (suf pre : List Nat) (s : Nat) (hs : s < 2 ^ 64) :
    validate_loop suf.length pre.length (pre ++ suf) s =
      some ((s + suf.sum) % 2 ^ 64) := by
  induction suf generalizing pre s with
  | nil =>
    simp only [List.length_nil, validate_loop, List.sum_nil, Nat.add_zero]
    rw [Nat.mod_eq_of_lt hs]
  | cons x xs ih =>
    simp only [List.length_cons, validate_loop, getElem?_append_cons_length]
    have := ih (pre ++ [x]) ((s + x) % 2 ^ 64) (Nat.mod_lt _ (by norm_num))
    simp only [List.length_append, List.length_singleton, List.append_assoc,
      List.singleton_append] at this
    rw [this, List.sum_cons]
    congr 1
    omega

/-- On an initialised histogram `Histogram__validate` returns true as soon as
the running-sum relation holds. -/
theorem validate_of_running_sum (m : Histogram) (hi : m.Initialised)
    (hr : m.RunningSum) : Histogram__validate (some m) = some true := by
  obtain ⟨hsome, hlen⟩ := hi
  obtain ⟨hist, hh⟩ := Option.isSome_iff_exists.1 hsome
  have hb : m.bins = hist := by simp [Histogram.bins, hh]
  rw [hb] at hlen
  unfold Histogram.RunningSum at hr
  rw [hb] at hr
  unfold Histogram__validate
  simp only [hh]
  rw [if_neg (by simp)]
  split
  · rfl
  · have hl := validate_loop_eq hist [] 0 (by norm_num)
    simp only [List.length_nil, List.nil_append, Nat.zero_add] at hl
    rw [← hlen, hl]
    simp only
    rw [if_neg]
    rw [hr]
    simp only [ne_eq, Decidable.not_not]
    omega

/-- A successful `Histogram__init` yields an initialised histogram with all
counters zero, which satisfies the running-sum relation. -/
theorem init_establishes (ok : Bool) (m0 : Histogram) (nb bs : Nat)
    (me : Option Histogram) (h : Histogram__init ok (some m0) nb bs = (true, me)) :
    ∃ m, me = some m ∧ m.Initialised ∧ m.RunningSum ∧ m.num_bins = nb ∧
      m.bin_size = bs ∧ 0 < nb := by
  unfold Histogram__init at h
  simp only at h
  split at h
  · simp at h
  · split at h
    · simp at h
    · rename_i hnb _
      simp only [Prod.mk.injEq, true_and] at h
      subst h
      refine ⟨_, rfl, ?_, ?_, rfl, rfl, Nat.pos_of_ne_zero hnb⟩
      · simp [Histogram.Initialised, Histogram.bins]
      · simp [Histogram.RunningSum, Histogram.bins]

theorem fields_of_invariant (m : Histogram) (hi : m.Initialised) :
    ∃ hist, m.histogram = some hist ∧ hist.length = m.num_bins ∧ m.bins = hist := by
  obtain ⟨hsome, hlen⟩ := hi
  obtain ⟨hist, hh⟩ := Option.isSome_iff_exists.1 hsome
  have hb : m.bins = hist := by simp [Histogram.bins, hh]
  exact ⟨hist, hh, hb ▸ hlen, hb⟩

/-- One call of any mutating operation, with any arguments and whatever it
returns, takes an initialised histogram satisfying the running-sum relation
to another one, with the same `num_bins` and `bin_size`. -/
theorem call_preserves (m : Histogram) (op : Op) (hi : m.Initialised)
    (hr : m.RunningSum) :
    ∃ r m', op.call (some m) = some (r, some m') ∧ m'.Initialised ∧ m'.RunningSum ∧
      m'.num_bins = m.num_bins ∧ m'.bin_size = m.bin_size := by
  obtain ⟨hist, hh, hlen, hb⟩ := fields_of_invariant m hi
  have hr0 := hr
  unfold Histogram.RunningSum at hr
  rw [hb] at hr
  cases op with
  | insert_finite index =>
    by_cases hz : m.bin_size = 0
    · refine ⟨false, m, ?_, hi, hr0, rfl, rfl⟩
      simp only [Op.call, Histogram__insert_finite, hh, if_pos hz]
    · obtain ⟨h1, h2⟩ := insert_finite_eval m hist index hh hlen (Nat.pos_of_ne_zero hz)
      by_cases hlt : index < (m.num_bins * m.bin_size) % 2 ^ 64
      · obtain ⟨x, hx, he⟩ := h1 hlt
        have hs := sum_set_add hist (index / m.bin_size) ((x + 1) % 2 ^ 64) x hx
        refine ⟨true, _, he, ?_, ?_, rfl, rfl⟩
        · simp [Histogram.Initialised, Histogram.bins, hlen]
        · simp only [Histogram.RunningSum, Histogram.bins, Option.getD_some]
          omega
      · refine ⟨true, _, h2 hlt, ?_, ?_, rfl, rfl⟩
        · simp [Histogram.Initialised, Histogram.bins, hh, hlen]
        · simp only [Histogram.RunningSum, Histogram.bins, hh, Option.getD_some]
          omega
  | insert_scaled_finite index scale =>
    by_cases hz : m.bin_size = 0
    · refine ⟨false, m, ?_, hi, hr0, rfl, rfl⟩
      simp only [Op.call, Histogram__insert_scaled_finite, hh, if_pos hz]
    · obtain ⟨h1, h2⟩ :=
        insert_scaled_finite_eval m hist index scale hh hlen (Nat.pos_of_ne_zero hz)
      by_cases hlt : (scale * index) % 2 ^ 64 < (m.num_bins * m.bin_size) % 2 ^ 64
      · obtain ⟨x, hx, he⟩ := h1 hlt
        have hs := sum_set_add hist ((scale * index) % 2 ^ 64 / m.bin_size)
          ((x + scale) % 2 ^ 64) x hx
        refine ⟨true, _, he, ?_, ?_, rfl, rfl⟩
        · simp [Histogram.Initialised, Histogram.bins, hlen]
        · simp only [Histogram.RunningSum, Histogram.bins, Option.getD_some]
          omega
      · refine ⟨true, _, h2 hlt, ?_, ?_, rfl, rfl⟩
        · simp [Histogram.Initialised, Histogram.bins, hh, hlen]
        · simp only [Histogram.RunningSum, Histogram.bins, hh, Option.getD_some]
          omega
  | insert_infinite =>
    refine ⟨true, _, (insert_infinite_eval m hist 0 hh).1, ?_, ?_, rfl, rfl⟩
    · simp [Histogram.Initialised, Histogram.bins, hh, hlen]
    · simp only [Histogram.RunningSum, Histogram.bins, hh, Option.getD_some]
      omega
  | insert_scaled_infinite scale =>
    refine ⟨true, _, (insert_infinite_eval m hist scale hh).2, ?_, ?_, rfl, rfl⟩
    · simp [Histogram.Initialised, Histogram.bins, hh, hlen]
    · simp only [Histogram.RunningSum, Histogram.bins, hh, Option.getD_some]
      omega
  | adjust_first_buckets adjustment =>
    by_cases hz : m.num_bins < 1 ∨ m.bin_size < 1
    · refine ⟨false, m, ?_, hi, hr0, rfl, rfl⟩
      simp only [Op.call, Histogram__adjust_first_buckets, if_pos hz]
    · have hl := adjust_loop_eq hist [] adjustment
      simp only [List.length_nil, List.nil_append, hlen] at hl
      have hsum := adjust_bins_sum hist adjustment
      have hlen' := adjust_bins_length hist adjustment
      have hw := wrapInt64_emod (adjustment - (adjust_bins hist adjustment).2)
      have hu := toUInt64_cast (wrapInt64 (adjustment - (adjust_bins hist adjustment).2))
      have key : (m.running_sum +
            toUInt64 (wrapInt64 (adjustment - (adjust_bins hist adjustment).2))) % 2 ^ 64 =
          ((adjust_bins hist adjustment).1.sum + m.false_infinity + m.infinity) % 2 ^ 64 := by
        omega
      by_cases ht : (adjust_bins hist adjustment).2 ≠ 0
      · refine ⟨false, ({ m with
            histogram := some (adjust_bins hist adjustment).1
            running_sum := (m.running_sum +
              toUInt64 (wrapInt64 (adjustment - (adjust_bins hist adjustment).2))) % 2 ^ 64 } :
            Histogram), ?_, ?_, ?_, rfl, rfl⟩
        · simp only [Op.call, Histogram__adjust_first_buckets, if_neg hz, hh, hl, if_pos ht]
        · simp [Histogram.Initialised, Histogram.bins, hlen, hlen']
        · simp only [Histogram.RunningSum, Histogram.bins, Option.getD_some]
          exact key
      · refine ⟨true, ({ m with
            histogram := some (adjust_bins hist adjustment).1
            running_sum := (m.running_sum +
              toUInt64 (wrapInt64 (adjustment - (adjust_bins hist adjustment).2))) % 2 ^ 64 } :
            Histogram), ?_, ?_, ?_, rfl, rfl⟩
        · simp only [Op.call, Histogram__adjust_first_buckets, if_neg hz, hh, hl, if_neg ht]
        · simp [Histogram.Initialised, Histogram.bins, hlen, hlen']
        · simp only [Histogram.RunningSum, Histogram.bins, Option.getD_some]
          exact key

theorem run_ops_preserves (ops : List Op) (m : Histogram) (hi : m.Initialised)
    (hr : m.RunningSum) :
    ∃ m', run_ops (some m) ops = some (some m') ∧ m'.Initialised ∧ m'.RunningSum := by
  induction ops generalizing m with
  | nil => exact ⟨m, rfl, hi, hr⟩
  | cons op ops ih =>
    obtain ⟨r, m1, hc, hi1, hr1, -, -⟩ := call_preserves m op hi hr
    obtain ⟨m2, h2, hi2, hr2⟩ := ih m1 hi1 hr1
    exact ⟨m2, by simp only [run_ops, hc, h2], hi2, hr2⟩

/-- C1. Running-sum invariant, all sums in 64-bit unsigned arithmetic.
(1) The histogram left by a successful `Histogram__init` is initialised and
satisfies `running_sum == sum(bins) + false_infinity + infinity`.
(2) From every initialised histogram satisfying the relation, one call of
`Histogram__insert_finite`, `Histogram__insert_scaled_finite`,
`Histogram__insert_infinite`, `Histogram__insert_scaled_infinite` or
`Histogram__adjust_first_buckets`, with any arguments, returns (true or false)
and leaves an initialised histogram satisfying the relation.
(3) After a successful `Histogram__init` followed by any sequence of these
calls, `Histogram__validate` returns true. -/
theorem running_sum_invariant :
    (∀ (ok : Bool) (m0 : Histogram) (nb bs : Nat) (m : Histogram),
      Histogram__init ok (some m0) nb bs = (true, some m) →
        m.Initialised ∧ m.RunningSum) ∧
    (∀ (m : Histogram) (op : Op), m.Initialised → m.RunningSum →
      ∃ r m', op.call (some m) = some (r, some m') ∧ m'.Initialised ∧ m'.RunningSum) ∧
    (∀ (ok : Bool) (m0 : Histogram) (nb bs : Nat) (m : Histogram) (ops : List Op),
      Histogram__init ok (some m0) nb bs = (true, some m) →
        ∃ m', run_ops (some m) ops = some (some m') ∧
          Histogram__validate (some m') = some true) := by
  refine ⟨?_, ?_, ?_⟩
  · intro ok m0 nb bs m h
    obtain ⟨m1, h1, hi, hr, -⟩ := init_establishes ok m0 nb bs _ h
    cases h1
    exact ⟨hi, hr⟩
  · intro m op hi hr
    obtain ⟨r, m', hc, hi', hr', -⟩ := call_preserves m op hi hr
    exact ⟨r, m', hc, hi', hr'⟩
  · intro ok m0 nb bs m ops h
    obtain ⟨m1, h1, hi, hr, -⟩ := init_establishes ok m0 nb bs _ h
    cases h1
    obtain ⟨m', hrun, hi', hr'⟩ := run_ops_preserves ops m hi hr
    exact ⟨m', hrun, validate_of_running_sum m' hi' hr'⟩

/-- Witness for C1: a 2-bin histogram after a cold miss,
two reuses, a scaled reuse and an adjustment by -7 that is only partly
applied still validates. -/
theorem running_sum_invariant_witness :
    ∃ m', run_ops (some ⟨some [0, 0], 2, 1, 0, 0, 0⟩)
        [.insert_infinite, .insert_finite 0, .insert_finite 9,
          .insert_scaled_finite 1 3, .adjust_first_buckets (-7)] = some (some m') ∧
      Histogram__validate (some m') = some true :=
  running_sum_invariant.2.2 true ⟨none, 7, 7, 7, 7, 7⟩ 2 1 ⟨some [0, 0], 2, 1, 0, 0, 0⟩
    [.insert_infinite, .insert_finite 0, .insert_finite 9,
      .insert_scaled_finite 1 3, .adjust_first_buckets (-7)] rfl

/-! ## Counting correctness -/

theorem div_eq_iff_in_bin {d bs i : Nat} (hb : 0 < bs) :
    (i * bs ≤ d ∧ d < (i + 1) * bs) ↔ d / bs = i := by
  constructor
  · rintro ⟨h1, h2⟩
    have h3 : i ≤ d / bs := (Nat.le_div_iff_mul_le hb).2 h1
    have h4 : d / bs < i + 1 := (Nat.div_lt_iff_lt_mul hb).2 h2
    omega
  · intro h
    subst h
    exact ⟨Nat.div_mul_le_self d bs, Nat.lt_mul_of_div_lt (Nat.lt_succ_self _) hb⟩

theorem countP_snoc (p : Option Nat → Bool) (l : List (Option Nat)) (a : Option Nat) :
    (l ++ [a]).countP p = l.countP p + (if p a = true then 1 else 0) := by
  rw [List.countP_append, List.countP_cons, List.countP_nil, Nat.zero_add]

/-- One access recorded on a histogram that counts `trace`: the call returns
true and the histogram counts `trace` followed by that access. -/
theorem counts_step (nb bs : Nat) (m : Histogram) (trace : List (Option Nat))
    (a : Option Nat) (hc : m.Counts nb bs trace) (hb : 0 < bs)
    (hp : nb * bs < 2 ^ 64) (hn : trace.length + 1 < 2 ^ 64) :
    ∃ m', (access_op a).call (some m) = some (true, some m') ∧
      m'.Counts nb bs (trace ++ [a]) := by
  obtain ⟨hist, hh, hlen, hnb, hbs, hbins, hfi, hinf, hrs⟩ := hc
  have hb' : 0 < m.bin_size := hbs ▸ hb
  have hmod : (m.num_bins * m.bin_size) % 2 ^ 64 = nb * bs := by
    rw [hnb, hbs, Nat.mod_eq_of_lt hp]
  have c1 := List.countP_le_length (distance_ge (nb * bs)) (l := trace)
  have c2 := List.countP_le_length Option.isNone (l := trace)
  cases a with
  | none =>
    refine ⟨_, (insert_infinite_eval m hist 0 hh).1, hist, hh, hlen, hnb, hbs, ?_, ?_, ?_, ?_⟩
    · intro i hi
      rw [hbins i hi, countP_snoc]
      simp [distance_in]
    · simp only [countP_snoc, distance_ge]
      simpa using hfi
    · simp only [countP_snoc, Option.isNone_none, if_true]
      omega
    · simp only [List.length_append, List.length_singleton]
      omega
  | some d =>
    obtain ⟨h1, h2⟩ := insert_finite_eval m hist d hh (hlen.trans hnb.symm) hb'
    rw [hmod] at h1 h2
    by_cases hlt : d < nb * bs
    · obtain ⟨x, hx, he⟩ := h1 hlt
      rw [hbs] at hx he
      have hk : d / bs < nb := (Nat.div_lt_iff_lt_mul hb).2 hlt
      have hxv := hbins (d / bs) hk
      rw [hx] at hxv
      have hxv : x = trace.countP (distance_in (d / bs * bs) ((d / bs + 1) * bs)) := by
        simpa using hxv
      have c3 := List.countP_le_length (distance_in (d / bs * bs) ((d / bs + 1) * bs))
        (l := trace)
      refine ⟨_, he, hist.set (d / bs) ((x + 1) % 2 ^ 64), rfl, ?_, hnb, rfl, ?_, ?_, ?_, ?_⟩
      · simp only [List.length_set]; exact hlen
      · intro i hi
        rw [countP_snoc]
        by_cases hik : d / bs = i
        · subst hik
          have hin : distance_in (d / bs * bs) ((d / bs + 1) * bs) (some d) = true := by
            have := (div_eq_iff_in_bin (d := d) (i := d / bs) hb).2 rfl
            simp [distance_in, this.1, this.2]
          rw [List.getElem?_set_self (by rw [hlen]; exact hi), hin, if_pos rfl, ← hxv]
          congr 1
          omega
        · have hin : distance_in (i * bs) ((i + 1) * bs) (some d) = false := by
            have := (div_eq_iff_in_bin (d := d) (i := i) hb).not.2 hik
            simp only [distance_in, Bool.and_eq_false_imp, decide_eq_true_eq,
              decide_eq_false_iff_not]
            intro h; exact fun h' => this ⟨h, h'⟩
          rw [List.getElem?_set_ne hik, hin, hbins i hi]
          simp
      · simp only [countP_snoc, distance_ge]
        have : ¬ nb * bs ≤ d := Nat.not_le.2 hlt
        simpa [this] using hfi
      · simp only [countP_snoc]
        simpa using hinf
      · simp only [List.length_append, List.length_singleton]
        omega
    · have he := h2 hlt
      refine ⟨_, he, hist, hh, hlen, hnb, hbs, ?_, ?_, ?_, ?_⟩
      · intro i hi
        rw [countP_snoc]
        have hle : (i + 1) * bs ≤ nb * bs := Nat.mul_le_mul_right bs hi
        have hin : distance_in (i * bs) ((i + 1) * bs) (some d) = false := by
          simp only [distance_in, Bool.and_eq_false_imp, decide_eq_true_eq,
            decide_eq_false_iff_not]
          intro _; omega
        rw [hin, hbins i hi]
        simp
      · simp only [countP_snoc, distance_ge]
        have : nb * bs ≤ d := Nat.not_lt.1 hlt
        simp only [this, decide_True, if_true]
        omega
      · simp only [countP_snoc]
        simpa using hinf
      · simp only [List.length_append, List.length_singleton]
        omega

theorem counts_run (nb bs : Nat) (rest : List (Option Nat)) (m : Histogram)
    (trace : List (Option Nat)) (hc : m.Counts nb bs trace) (hb : 0 < bs)
    (hp : nb * bs < 2 ^ 64) (hn : trace.length + rest.length < 2 ^ 64) :
    ∃ m', run_ops (some m) (rest.map access_op) = some (some m') ∧
      m'.Counts nb bs (trace ++ rest) := by
  induction rest generalizing m trace with
  | nil => exact ⟨m, rfl, by simpa using hc⟩
  | cons a rest ih =>
    simp only [List.length_cons] at hn
    obtain ⟨m1, h1, hc1⟩ := counts_step nb bs m trace a hc hb hp (by omega)
    obtain ⟨m2, h2, hc2⟩ := ih m1 (trace ++ [a]) hc1
      (by simp only [List.length_append, List.length_singleton]; omega)
    refine ⟨m2, ?_, by simpa using hc2⟩
    simp only [List.map_cons, run_ops, h1, h2]

theorem counts_init (m0 : Histogram) (nb bs : Nat) (hnb : 0 < nb) :
    ∃ m, Histogram__init true (some m0) nb bs = (true, some m) ∧ m.Counts nb bs [] := by
  refine ⟨⟨some (List.replicate nb 0), nb, bs, 0, 0, 0⟩, ?_,
    List.replicate nb 0, rfl, by simp, rfl, rfl, ?_, rfl, rfl, rfl⟩
  · simp only [Histogram__init, if_neg (Nat.pos_iff_ne_zero.1 hnb)]
    rfl
  · intro i hi
    simp [List.getElem?_replicate, hi]

/-- C4. Counting correctness. After a successful
`Histogram__init(num_bins, bin_size)` with `num_bins > 0`, `bin_size > 0` and
`num_bins * bin_size < 2^64`, and one call per access of a trace of fewer than
`2^64` accesses (`Histogram__insert_finite(d)` for a reuse of distance `d`,
`Histogram__insert_infinite` for a cold miss), in the order of the trace:
every bin `i < num_bins` holds the number of distances `d` with
`i * bin_size <= d < (i + 1) * bin_size`, `false_infinity` the number of
distances `d >= num_bins * bin_size`, `infinity` the number of cold misses and
`running_sum` the number of accesses. -/
theorem counting_correctness (m0 : Histogram) (nb bs : Nat)
    (trace : List (Option Nat)) (hnb : 0 < nb) (hbs : 0 < bs)
    (hp : nb * bs < 2 ^ 64) (hn : trace.length < 2 ^ 64) :
    (Histogram__init true (some m0) nb bs).1 = true ∧
    ∃ m hist,
      run_ops (Histogram__init true (some m0) nb bs).2 (trace.map access_op) =
        some (some m) ∧
      m.histogram = some hist ∧ hist.length = nb ∧
      (∀ i, i < nb →
        hist[i]? = some (trace.countP (distance_in (i * bs) ((i + 1) * bs)))) ∧
      m.false_infinity = trace.countP (distance_ge (nb * bs)) ∧
      m.infinity = trace.countP Option.isNone ∧
      m.running_sum = trace.length := by
  obtain ⟨m, hinit, hc⟩ := counts_init m0 nb bs hnb
  obtain ⟨m', hrun, hist, hh, hlen, -, -, hbins, hfi, hinf, hrs⟩ :=
    counts_run nb bs trace m [] hc hbs hp (by simpa using hn)
  rw [hinit]
  simp only [List.nil_append] at hbins hfi hinf hrs
  exact ⟨rfl, m', hist, hrun, hh, hlen, hbins, hfi, hinf, hrs⟩

/-- Witness for C4: `init(4, 1)`, one cold miss and three
reuses at distance 0 give `infinity = 1`, `bins = [3, 0, 0, 0]` and
`running_sum = 4`. -/
theorem counting_correctness_witness :
    ((Histogram__init true (some ⟨none, 0, 0, 0, 0, 0⟩) 4 1).1 = true ∧
      ∃ m hist,
        run_ops (Histogram__init true (some ⟨none, 0, 0, 0, 0, 0⟩) 4 1).2
          ([none, some 0, some 0, some 0].map access_op) = some (some m) ∧
        m.histogram = some hist ∧ hist.length = 4 ∧
        (∀ i, i < 4 → hist[i]? = some
          ([none, some 0, some 0, some 0].countP (distance_in (i * 1) ((i + 1) * 1)))) ∧
        m.false_infinity = [none, some 0, some 0, some 0].countP (distance_ge (4 * 1)) ∧
        m.infinity = [none, some 0, some 0, some 0].countP Option.isNone ∧
        m.running_sum = [none, some 0, some 0, some 0].length) ∧
    run_ops (Histogram__init true (some ⟨none, 0, 0, 0, 0, 0⟩) 4 1).2
        ([none, some 0, some 0, some 0].map access_op) =
      some (some ⟨some [3, 0, 0, 0], 4, 1, 0, 1, 4⟩) :=
  ⟨counting_correctness ⟨none, 0, 0, 0, 0, 0⟩ 4 1 [none, some 0, some 0, some 0]
    (by decide) (by decide) (by decide) (by decide), by decide⟩

/-! ## Adjustment of the first buckets -/

/-- One iteration that absorbs the residual: the bin is below `2^63` and the
signed sum is in `[0, 2^63)`. -/
theorem adjust_bins_head (x : Nat) (xs : List Nat) (t : Int) (hx : x < 2 ^ 63)
    (h1 : 0 ≤ (x : Int) + t) (h2 : (x : Int) + t < 2 ^ 63) :
    adjust_bins (x :: xs) t = (((x : Int) + t).toNat :: xs, 0) := by
  have e1 : toInt64 x = (x : Int) := toInt64_of_lt hx
  have e2 : wrapInt64 ((x : Int) + t) = (x : Int) + t := wrapInt64_of_range (by omega) h2
  have e3 := toUInt64_cast t
  simp only [adjust_bins, e1, e2]
  rw [if_neg (by omega)]
  congr 2
  omega

/-- One iteration that empties the bin: the bin is below `2^63`, the residual
is an `int64_t` and the signed sum is negative. -/
theorem adjust_bins_cascade (x : Nat) (xs : List Nat) (t : Int) (hx : x < 2 ^ 63)
    (ht : -2 ^ 63 ≤ t) (h : (x : Int) + t < 0) :
    adjust_bins (x :: xs) t =
      (0 :: (adjust_bins xs (t + x)).1, (adjust_bins xs (t + x)).2) := by
  have e1 : toInt64 x = (x : Int) := toInt64_of_lt hx
  have e2 : wrapInt64 ((x : Int) + t) = (x : Int) + t :=
    wrapInt64_of_range (by omega) (by omega)
  have e3 : wrapInt64 (t + (x : Int)) = t + (x : Int) :=
    wrapInt64_of_range (by omega) (by omega)
  simp only [adjust_bins, e1, e2, e3]
  rw [if_pos h]

/-- A residual that the bins can absorb: the loop empties the bins before
some bin `j`, leaves in bin `j` the total of the bins up to `j` plus the
residual, leaves the later bins alone and ends with residual 0. -/
theorem adjust_bins_absorb (l : List Nat) (t : Int) (hl : ∀ x ∈ l, x < 2 ^ 63)
    (ht : -2 ^ 63 ≤ t) (hov : ∀ x : Nat, l[0]? = some x → (x : Int) + t < 2 ^ 63)
    (hs : 0 ≤ ((l.sum : Nat) : Int) + t) (hne : l ≠ []) :
    ∃ j v, j < l.length ∧ ((v : Nat) : Int) = (((l.take (j + 1)).sum : Nat) : Int) + t ∧
      adjust_bins l t = (List.replicate j 0 ++ v :: l.drop (j + 1), 0) ∧
      (∀ x : Nat, l[0]? = some x → 0 ≤ (x : Int) + t → j = 0) := by
  induction l generalizing t with
  | nil => exact absurd rfl hne
  | cons x xs ih =>
    have hx : x < 2 ^ 63 := hl x (List.mem_cons_self _ _)
    have hxt := hov x (by simp)
    by_cases hneg : (x : Int) + t < 0
    · have hxs : xs ≠ [] := by
        rintro rfl
        simp only [List.sum_cons, List.sum_nil, Nat.add_zero] at hs
        omega
      obtain ⟨j, v, hj, hv, he, -⟩ := ih (t + x)
        (fun y hy => hl y (List.mem_cons_of_mem _ hy)) (by omega)
        (fun y hy => by
          have : y < 2 ^ 63 := hl y (List.mem_cons_of_mem _ (List.getElem?_mem hy))
          omega)
        (by simp only [List.sum_cons, Nat.cast_add] at hs; omega) hxs
      refine ⟨j + 1, v, by simp only [List.length_cons]; omega, ?_, ?_, ?_⟩
      · simp only [List.take_succ_cons, List.sum_cons, Nat.cast_add]
        omega
      · rw [adjust_bins_cascade x xs t hx ht hneg, he]
        simp [List.replicate_succ]
      · intro y hy h0
        simp only [List.getElem?_cons_zero, Option.some.injEq] at hy
        subst hy
        omega
    · refine ⟨0, ((x : Int) + t).toNat, by simp, ?_, ?_, fun _ _ _ => rfl⟩
      · simp only [Nat.zero_add, List.take_succ_cons, List.take_zero, List.sum_cons,
          List.sum_nil, Nat.add_zero]
        omega
      · rw [adjust_bins_head x xs t hx (by omega) hxt]
        simp

/-- A negative residual larger than the total of the bins: the loop empties
every bin and ends with the residual plus that total. -/
theorem adjust_bins_exhaust (l : List Nat) (t : Int) (hl : ∀ x ∈ l, x < 2 ^ 63)
    (ht : -2 ^ 63 ≤ t) (hs : ((l.sum : Nat) : Int) + t < 0) :
    adjust_bins l t = (List.replicate l.length 0, t + ((l.sum : Nat) : Int)) := by
  induction l generalizing t with
  | nil => simp [adjust_bins]
  | cons x xs ih =>
    have hx : x < 2 ^ 63 := hl x (List.mem_cons_self _ _)
    simp only [List.sum_cons, Nat.cast_add] at hs
    rw [adjust_bins_cascade x xs t hx ht (by omega),
      ih (t + x) (fun y hy => hl y (List.mem_cons_of_mem _ hy)) (by omega) (by omega)]
    simp only [List.length_cons, List.replicate_succ, List.sum_cons, Nat.cast_add,
      Prod.mk.injEq, true_and]
    omega

/-- Evaluation of `Histogram__adjust_first_buckets` on an initialised histogram
with at least one bin and a positive bin size, in terms of `adjust_bins`. -/
theorem adjust_first_buckets_eval (m : Histogram) (hist : List Nat) (adjustment : Int)
    (hh : m.histogram = some hist) (hl : hist.length = m.num_bins)
    (hnb : 1 ≤ m.num_bins) (hbs : 1 ≤ m.bin_size) :
    Histogram__adjust_first_buckets (some m) adjustment =
      some (decide ((adjust_bins hist adjustment).2 = 0), some { m with
        histogram := some (adjust_bins hist adjustment).1
        running_sum := (m.running_sum +
          toUInt64 (wrapInt64 (adjustment - (adjust_bins hist adjustment).2))) % 2 ^ 64 }) := by
  have hz : ¬ (m.num_bins < 1 ∨ m.bin_size < 1) := by omega
  have hlp := adjust_loop_eq hist [] adjustment
  simp only [List.length_nil, List.nil_append, hl] at hlp
  simp only [Histogram__adjust_first_buckets, if_neg hz, hh, hlp]
  by_cases ht : (adjust_bins hist adjustment).2 = 0
  · simp [ht]
  · simp [ht]

/-- C7. Absorbed adjustment. For an initialised histogram with
`num_bins >= 1`, `bin_size >= 1`, every bin below `2^63`, and a signed 64-bit
`delta` with `sum(bins) + delta >= 0` whose addition to `bins[0]` does not
overflow (`bins[0] + delta < 2^63`), `Histogram__adjust_first_buckets(delta)`
returns true and there is a bin `j` such that afterwards the bins before `j`
are 0, bin `j` holds (the sum of the original bins up to and including `j`)
`+ delta`, and the bins after `j` are unchanged; `j = 0` whenever
`bins[0] + delta >= 0`. The total of the bins changes by exactly `delta`,
`running_sum` becomes `running_sum + delta` modulo `2^64`, and `false_infinity`,
`infinity`, `num_bins` and `bin_size` are unchanged. -/
theorem adjust_first_buckets_absorbed (m : Histogram) (hist : List Nat) (delta : Int)
    (hh : m.histogram = some hist) (hl : hist.length = m.num_bins)
    (hnb : 1 ≤ m.num_bins) (hbs : 1 ≤ m.bin_size)
    (hbins : ∀ x ∈ hist, x < 2 ^ 63)
    (hd1 : -2 ^ 63 ≤ delta) (hd2 : delta < 2 ^ 63)
    (hs : 0 ≤ ((hist.sum : Nat) : Int) + delta)
    (hov : ∀ x : Nat, hist[0]? = some x → (x : Int) + delta < 2 ^ 63) :
    ∃ j v, j < m.num_bins ∧
      ((v : Nat) : Int) = (((hist.take (j + 1)).sum : Nat) : Int) + delta ∧
      Histogram__adjust_first_buckets (some m) delta =
        some (true, some { m with
          histogram := some (List.replicate j 0 ++ v :: hist.drop (j + 1))
          running_sum := toUInt64 ((m.running_sum : Int) + delta) }) ∧
      (∀ x : Nat, hist[0]? = some x → 0 ≤ (x : Int) + delta → j = 0) ∧
      (((List.replicate j 0 ++ v :: hist.drop (j + 1)).sum : Nat) : Int) =
        ((hist.sum : Nat) : Int) + delta := by
  have hne : hist ≠ [] := by
    rintro rfl
    simp only [List.length_nil] at hl
    omega
  obtain ⟨j, v, hj, hv, he, h0⟩ := adjust_bins_absorb hist delta hbins hd1 hov hs hne
  refine ⟨j, v, hl ▸ hj, hv, ?_, h0, ?_⟩
  · rw [adjust_first_buckets_eval m hist delta hh hl hnb hbs, he]
    have e1 : wrapInt64 (delta - 0) = delta := by
      rw [Int.sub_zero]; exact wrapInt64_of_range hd1 hd2
    have e2 := toUInt64_cast delta
    have e3 := toUInt64_cast ((m.running_sum : Int) + delta)
    have e4 : (m.running_sum + toUInt64 delta) % 2 ^ 64 =
        toUInt64 ((m.running_sum : Int) + delta) := by omega
    simp only [e1, e4, decide_True]
  · have hsplit := List.sum_take_add_sum_drop hist (j + 1)
    simp only [List.sum_append, List.sum_replicate, smul_eq_mul, Nat.mul_zero,
      List.sum_cons, Nat.zero_add, Nat.cast_add]
    omega

/-- Witness for C7: on bins `[2, 3, 5]` the adjustment `-4` empties bin 0 and
leaves 1 in bin 1. -/
theorem adjust_first_buckets_absorbed_witness :
    (∃ j v, j < 3 ∧
      ((v : Nat) : Int) = ((([2, 3, 5].take (j + 1)).sum : Nat) : Int) + (-4) ∧
      Histogram__adjust_first_buckets (some ⟨some [2, 3, 5], 3, 1, 0, 0, 10⟩) (-4) =
        some (true, some ⟨some (List.replicate j 0 ++ v :: [2, 3, 5].drop (j + 1)),
          3, 1, 0, 0, toUInt64 (((10 : Nat) : Int) + (-4))⟩) ∧
      (∀ x : Nat, [2, 3, 5][0]? = some x → 0 ≤ (x : Int) + (-4) → j = 0) ∧
      (((List.replicate j 0 ++ v :: [2, 3, 5].drop (j + 1)).sum : Nat) : Int) =
        ((([2, 3, 5] : List Nat).sum : Nat) : Int) + (-4)) ∧
    Histogram__adjust_first_buckets (some ⟨some [2, 3, 5], 3, 1, 0, 0, 10⟩) (-4) =
      some (true, some ⟨some [0, 1, 5], 3, 1, 0, 0, 6⟩) :=
  ⟨adjust_first_buckets_absorbed ⟨some [2, 3, 5], 3, 1, 0, 0, 10⟩ [2, 3, 5] (-4) rfl rfl
    (by decide) (by decide) (by decide) (by decide) (by decide) (by decide)
    (by intro x hx; simp only [List.getElem?_cons_zero, Option.some.injEq] at hx
        subst hx; decide),
   by decide⟩

/-- C8. Unabsorbed adjustment. For an initialised histogram with
`num_bins >= 1`, `bin_size >= 1`, every bin below `2^63`, and a negative signed
64-bit `delta` whose magnitude exceeds `sum(bins)`,
`Histogram__adjust_first_buckets(delta)` returns false, sets every bin to 0 and
decreases `running_sum` by the original `sum(bins)` (modulo `2^64`), not by
`|delta|`; `false_infinity`, `infinity`, `num_bins` and `bin_size` are
unchanged. -/
theorem adjust_first_buckets_unabsorbed (m : Histogram) (hist : List Nat) (delta : Int)
    (hh : m.histogram = some hist) (hl : hist.length = m.num_bins)
    (hnb : 1 ≤ m.num_bins) (hbs : 1 ≤ m.bin_size)
    (hbins : ∀ x ∈ hist, x < 2 ^ 63)
    (hd1 : -2 ^ 63 ≤ delta) (hd2 : delta < 0)
    (hs : ((hist.sum : Nat) : Int) < -delta) :
    Histogram__adjust_first_buckets (some m) delta =
      some (false, some { m with
        histogram := some (List.replicate m.num_bins 0)
        running_sum := toUInt64 ((m.running_sum : Int) - ((hist.sum : Nat) : Int)) }) := by
  have he := adjust_bins_exhaust hist delta hbins hd1 (by omega)
  rw [adjust_first_buckets_eval m hist delta hh hl hnb hbs, he]
  have e0 : delta - (delta + ((hist.sum : Nat) : Int)) = -((hist.sum : Nat) : Int) := by omega
  have e1 : wrapInt64 (-((hist.sum : Nat) : Int)) = -((hist.sum : Nat) : Int) :=
    wrapInt64_of_range (by omega) (by omega)
  have e2 := toUInt64_cast (-((hist.sum : Nat) : Int))
  have e3 := toUInt64_cast ((m.running_sum : Int) - ((hist.sum : Nat) : Int))
  have e4 : (m.running_sum + toUInt64 (-((hist.sum : Nat) : Int))) % 2 ^ 64 =
      toUInt64 ((m.running_sum : Int) - ((hist.sum : Nat) : Int)) := by omega
  have e5 : decide (delta + ((hist.sum : Nat) : Int) = 0) = false := by
    simp only [decide_eq_false_iff_not]; omega
  simp only [e0, e1, e4, e5, hl]

/-- Witness for C8: on bins `[2, 3]` with `running_sum = 9` the adjustment
`-7` empties both bins, takes 5 from `running_sum` and returns false. -/
theorem adjust_first_buckets_unabsorbed_witness :
    Histogram__adjust_first_buckets (some ⟨some [2, 3], 2, 1, 4, 0, 9⟩) (-7) =
      some (false, some ⟨some [0, 0], 2, 1, 4, 0, 4⟩) :=
  adjust_first_buckets_unabsorbed ⟨some [2, 3], 2, 1, 4, 0, 9⟩ [2, 3] (-7) rfl rfl
    (by decide) (by decide) (by decide) (by decide) (by decide) (by decide)

/-- The call that adds a residual absorbed by bin 0: it returns true, adds the
adjustment to bin 0 and to `running_sum`, and changes nothing else. -/
theorem adjust_first_buckets_first_bin (m : Histogram) (b0 : Nat) (rest : List Nat)
    (t : Int) (hh : m.histogram = some (b0 :: rest))
    (hl : (b0 :: rest).length = m.num_bins) (hbs : 1 ≤ m.bin_size)
    (hb0 : b0 < 2 ^ 63) (ht1 : -2 ^ 63 ≤ t) (ht2 : t < 2 ^ 63)
    (h1 : 0 ≤ (b0 : Int) + t) (h2 : (b0 : Int) + t < 2 ^ 63) :
    Histogram__adjust_first_buckets (some m) t =
      some (true, some { m with
        histogram := some (((b0 : Int) + t).toNat :: rest)
        running_sum := toUInt64 ((m.running_sum : Int) + t) }) := by
  have hnb : 1 ≤ m.num_bins := by rw [← hl]; simp
  rw [adjust_first_buckets_eval m (b0 :: rest) t hh hl hnb hbs,
    adjust_bins_head b0 rest t hb0 h1 h2]
  have e1 : wrapInt64 (t - 0) = t := by
    rw [Int.sub_zero]; exact wrapInt64_of_range ht1 ht2
  have e2 := toUInt64_cast t
  have e3 := toUInt64_cast ((m.running_sum : Int) + t)
  have e4 : (m.running_sum + toUInt64 t) % 2 ^ 64 =
      toUInt64 ((m.running_sum : Int) + t) := by omega
  simp only [e1, e4, decide_True]

/-- C9 (as amended). Adjustment round trip. For an initialised histogram with
`num_bins >= 1`, `bin_size >= 1`, 64-bit `running_sum`, and every `k` with
`0 <= k <= bins[0]` and `bins[0] + k < 2^63`, the call
`Histogram__adjust_first_buckets(+k)` returns true and adds `k` to bin 0, and
the following call `Histogram__adjust_first_buckets(-k)` returns true and
leaves the histogram exactly as it was before the two calls. -/
theorem adjust_round_trip (m : Histogram) (b0 : Nat) (rest : List Nat) (k : Int)
    (hh : m.histogram = some (b0 :: rest)) (hl : (b0 :: rest).length = m.num_bins)
    (hnb : 1 ≤ m.num_bins) (hbs : 1 ≤ m.bin_size) (hrs : m.running_sum < 2 ^ 64)
    (hk0 : 0 ≤ k) (hk1 : k ≤ (b0 : Int)) (hov : (b0 : Int) + k < 2 ^ 63) :
    ∃ m1 : Histogram,
      m1.histogram = some (((b0 : Int) + k).toNat :: rest) ∧
      Histogram__adjust_first_buckets (some m) k = some (true, some m1) ∧
      Histogram__adjust_first_buckets (some m1) (-k) = some (true, some m) := by
  obtain ⟨h, nb, bs, fi, inf, rs⟩ := m
  simp only at hh hl hnb hbs hrs
  subst hh
  refine ⟨⟨some (((b0 : Int) + k).toNat :: rest), nb, bs, fi, inf,
    toUInt64 ((rs : Int) + k)⟩, rfl, ?_, ?_⟩
  · exact adjust_first_buckets_first_bin _ b0 rest k rfl hl hbs (by omega) (by omega)
      (by omega) (by omega) hov
  · have hcast : ((((b0 : Int) + k).toNat : Nat) : Int) = (b0 : Int) + k :=
      Int.toNat_of_nonneg (by omega)
    have e3 := toUInt64_cast ((rs : Int) + k)
    have e5 := toUInt64_cast (((toUInt64 ((rs : Int) + k) : Nat) : Int) + -k)
    have e6 : toUInt64 (((toUInt64 ((rs : Int) + k) : Nat) : Int) + -k) = rs := by omega
    have e7 : (((((b0 : Int) + k).toNat : Nat) : Int) + -k).toNat = b0 := by omega
    have := adjust_first_buckets_first_bin
      ⟨some (((b0 : Int) + k).toNat :: rest), nb, bs, fi, inf, toUInt64 ((rs : Int) + k)⟩
      (((b0 : Int) + k).toNat) rest (-k) rfl (by simpa using hl) hbs (by omega) (by omega)
      (by omega) (by omega) (by omega)
    simp only [e6, e7] at this
    exact this

/-- Witness for C9: bins `[5, 1]`, `k = 3`. -/
theorem adjust_round_trip_witness :
    ∃ m1 : Histogram,
      m1.histogram = some ((((5 : Nat) : Int) + 3).toNat :: [1]) ∧
      Histogram__adjust_first_buckets (some ⟨some [5, 1], 2, 1, 0, 0, 6⟩) 3 =
        some (true, some m1) ∧
      Histogram__adjust_first_buckets (some m1) (-3) =
        some (true, some ⟨some [5, 1], 2, 1, 0, 0, 6⟩) :=
  adjust_round_trip ⟨some [5, 1], 2, 1, 0, 0, 6⟩ 5 [1] 3 rfl rfl (by decide) (by decide)
    (by decide) (by decide) (by decide) (by decide)

/-- C9 (counterexample to the claim as stated). With one bin holding
`2^64 - 1` and `k = 1 <= bins[0]`, the call with `+1` returns true and wraps the
bin to 0, and the call with `-1` then returns false and leaves the bin at 0:
the original bin is not restored. -/
theorem adjust_round_trip_fails :
    (0 : Int) ≤ 1 ∧ (1 : Int) ≤ ((2 ^ 64 - 1 : Nat) : Int) ∧
    Histogram__adjust_first_buckets
        (some ⟨some [2 ^ 64 - 1], 1, 1, 0, 0, 2 ^ 64 - 1⟩) 1 =
      some (true, some ⟨some [0], 1, 1, 0, 0, 0⟩) ∧
    Histogram__adjust_first_buckets (some ⟨some [0], 1, 1, 0, 0, 0⟩) (-1) =
      some (false, some ⟨some [0], 1, 1, 0, 0, 0⟩) ∧
    (⟨some [0], 1, 1, 0, 0, 0⟩ : Histogram) ≠ ⟨some [2 ^ 64 - 1], 1, 1, 0, 0, 2 ^ 64 - 1⟩ := by
  decide

/-- C10 (as amended). For an initialised histogram with `num_bins >= 1`,
`bin_size >= 1`, 64-bit `running_sum` and `bins[0] < 2^63`,
`Histogram__adjust_first_buckets(0)` returns true and leaves the histogram
(every bin, `running_sum`, `false_infinity`, `infinity`) exactly as it was. -/
theorem adjust_zero_noop (m : Histogram) (b0 : Nat) (rest : List Nat)
    (hh : m.histogram = some (b0 :: rest)) (hl : (b0 :: rest).length = m.num_bins)
    (hnb : 1 ≤ m.num_bins) (hbs : 1 ≤ m.bin_size) (hrs : m.running_sum < 2 ^ 64)
    (hb0 : b0 < 2 ^ 63) :
    Histogram__adjust_first_buckets (some m) 0 = some (true, some m) := by
  obtain ⟨h, nb, bs, fi, inf, rs⟩ := m
  simp only at hh hl hnb hbs hrs
  subst hh
  have e1 := toUInt64_cast ((rs : Int) + 0)
  have e2 : toUInt64 ((rs : Int) + 0) = rs := by omega
  have e3 : ((b0 : Int) + 0).toNat = b0 := by omega
  have := adjust_first_buckets_first_bin ⟨some (b0 :: rest), nb, bs, fi, inf, rs⟩
    b0 rest 0 rfl hl hbs hb0 (by omega) (by omega) (by omega) (by omega)
  simp only [e2, e3] at this
  exact this

/-- Witness for C10: bins `[5, 1]`. -/
theorem adjust_zero_noop_witness :
    Histogram__adjust_first_buckets (some ⟨some [5, 1], 2, 1, 0, 2, 8⟩) 0 =
      some (true, some ⟨some [5, 1], 2, 1, 0, 2, 8⟩) :=
  adjust_zero_noop ⟨some [5, 1], 2, 1, 0, 2, 8⟩ 5 [1] rfl rfl (by decide) (by decide)
    (by decide) (by decide)

/-- C10 (counterexample to the claim as stated). With one bin holding
`2^64 - 1`, `Histogram__adjust_first_buckets(0)` returns false, sets the bin to
0 and changes `running_sum`. -/
theorem adjust_zero_not_noop :
    Histogram__adjust_first_buckets
        (some ⟨some [2 ^ 64 - 1], 1, 1, 0, 0, 2 ^ 64 - 1⟩) 0 =
      some (false, some ⟨some [0], 1, 1, 0, 0, 0⟩) ∧
    Histogram__adjust_first_buckets
        (some ⟨some [2 ^ 64 - 1], 1, 1, 0, 0, 2 ^ 64 - 1⟩) 0 ≠
      some (true, some ⟨some [2 ^ 64 - 1], 1, 1, 0, 0, 2 ^ 64 - 1⟩) := by
  decide

/-! ## Sparse save -/

theorem write_index_miss_rate_pair_ok (env : FileEnv) (out : List Nat)
    (index bin_size frequency : Nat) (hw : ∀ n, env.fwrite_ok n = true) :
    write_index_miss_rate_pair env out index bin_size frequency =
      (true, out ++ [(index * bin_size) % 2 ^ 64] ++ [frequency]) := by
  simp only [write_index_miss_rate_pair, hw, Bool.true_eq_false, if_false]

/-- When every `fwrite` succeeds, the loop of `Histogram__save_sparse`, started
at index `pre.length` with as many iterations left as there are bins from
there on, stays inside the array, is not left early and appends
`sparse_items` of those bins to what is written. -/
theorem save_sparse_loop_eq (env : FileEnv) (bs : Nat) (suf pre out : List Nat)
    (hw : ∀ n, env.fwrite_ok n = true) :
    save_sparse_loop env bs suf.length pre.length (pre ++ suf) out =
      some (true, out ++ sparse_items bs pre.length suf) := by
  induction suf generalizing pre out with
  | nil => simp [save_sparse_loop, sparse_items]
  | cons x xs ih =>
    simp only [List.length_cons, save_sparse_loop, getElem?_append_cons_length,
      sparse_items]
    by_cases hx : x = 0
    · have := ih (pre ++ [x]) out
      simp only [List.length_append, List.length_singleton, List.append_assoc,
        List.singleton_append] at this
      simp only [if_pos hx]
      exact this
    · have := ih (pre ++ [x]) (out ++ [(pre.length * bs) % 2 ^ 64] ++ [x])
      simp only [List.length_append, List.length_singleton, List.append_assoc,
        List.singleton_append] at this
      simp only [if_neg hx, write_index_miss_rate_pair_ok env out pre.length bs x hw,
        List.append_assoc, List.singleton_append]
      exact this

/-- The records of `sparse_items` are the pairs `(i * bin_size mod 2^64, bin)`
of the nonzero bins, by increasing index. -/
theorem records_sparse_items (bs i : Nat) (l : List Nat) :
    records (sparse_items bs i l) =
      ((l.enumFrom i).filter (fun p => p.2 != 0)).map
        (fun p => ((p.1 * bs) % 2 ^ 64, p.2)) := by
  induction l generalizing i with
  | nil => simp [sparse_items, records]
  | cons x xs ih =>
    by_cases hx : x = 0
    · simp [sparse_items, hx, ih]
    · simp [sparse_items, hx, records, ih]

theorem sparse_items_length (bs i : Nat) (l : List Nat) :
    (sparse_items bs i l).length = 2 * (records (sparse_items bs i l)).length := by
  induction l generalizing i with
  | nil => simp [sparse_items, records]
  | cons x xs ih =>
    by_cases hx : x = 0
    · simp only [sparse_items, if_pos hx, ih]
    · simp only [sparse_items, if_neg hx, records, List.length_cons, ih]
      omega

/-- When the scaled indices of the nonzero bins from index `i` on fit in 64
bits, looking up the scaled index of bin `j` in the records gives the bin when
it is a nonzero bin from index `i` on, and nothing otherwise. -/
theorem lookup_sparse_items (bs : Nat) (l : List Nat) (i j : Nat)
    (hfit : ∀ k x, l[k]? = some x → x ≠ 0 → 0 < bs ∧ (i + k) * bs < 2 ^ 64) :
    (records (sparse_items bs i l)).lookup (j * bs) =
      if i ≤ j ∧ j < i + l.length ∧ l.getD (j - i) 0 ≠ 0 then some (l.getD (j - i) 0)
      else none := by
  induction l generalizing i with
  | nil => simp [sparse_items, records]
  | cons x xs ih =>
    have hfit' : ∀ k y, xs[k]? = some y → y ≠ 0 → 0 < bs ∧ (i + 1 + k) * bs < 2 ^ 64 := by
      intro k y hy hne
      have := hfit (k + 1) y (by simpa using hy) hne
      have e : i + 1 + k = i + (k + 1) := by omega
      rw [e]; exact this
    have hih := ih (i + 1) hfit'
    have hstep : (if i + 1 ≤ j ∧ j < i + 1 + xs.length ∧ xs.getD (j - (i + 1)) 0 ≠ 0
          then some (xs.getD (j - (i + 1)) 0) else none) =
        (if i ≤ j ∧ j < i + (x :: xs).length ∧ (x :: xs).getD (j - i) 0 ≠ 0
          then some ((x :: xs).getD (j - i) 0) else none) ∨ j = i := by
      by_cases hji : j = i
      · exact Or.inr hji
      left
      by_cases hlt : i + 1 ≤ j
      · obtain ⟨k, rfl⟩ : ∃ k, j = i + 1 + k := ⟨j - (i + 1), by omega⟩
        have e1 : i + 1 + k - (i + 1) = k := by omega
        have e2 : i + 1 + k - i = k + 1 := by omega
        simp only [e1, e2, List.length_cons, List.getD_cons_succ]
        have e3 : (i + 1 ≤ i + 1 + k) = True := by simp
        have e4 : (i ≤ i + 1 + k) = True := by simp; omega
        have e5 : (i + 1 + k < i + 1 + xs.length) = (i + 1 + k < i + (xs.length + 1)) := by
          simp only [eq_iff_iff]; omega
        simp only [e3, e4, e5]
      · have h1 : ¬ (i + 1 ≤ j ∧ j < i + 1 + xs.length ∧ xs.getD (j - (i + 1)) 0 ≠ 0) :=
          fun h => hlt h.1
        have h2 : ¬ (i ≤ j ∧ j < i + (x :: xs).length ∧ (x :: xs).getD (j - i) 0 ≠ 0) :=
          fun h => by omega
        rw [if_neg h1, if_neg h2]
    by_cases hx : x = 0
    · by_cases hji : j = i
      · subst hji
        simp only [sparse_items, if_pos hx, hih]
        simp [hx]
      · simp only [sparse_items, if_pos hx, hih, hstep.resolve_right hji]
    · obtain ⟨hb, hi⟩ := hfit 0 x (by simp) hx
      rw [Nat.add_zero] at hi
      by_cases hji : j = i
      · subst hji
        simp only [sparse_items, if_neg hx, records, Nat.mod_eq_of_lt hi]
        simp [hx]
      · have hkey : (j * bs == i * bs) = false := by
          simp only [beq_eq_false_iff_ne, ne_eq]
          intro h
          exact hji (Nat.eq_of_mul_eq_mul_right hb h)
        simp only [sparse_items, if_neg hx, records, Nat.mod_eq_of_lt hi, List.lookup_cons,
          hkey, hih, hstep.resolve_right hji]

theorem scaledIndicesFit_iff (bs : Nat) (hist : List Nat) :
    ScaledIndicesFit bs hist ↔
      ∀ i x, hist[i]? = some x → x ≠ 0 → 0 < bs ∧ i * bs < 2 ^ 64 := by
  unfold ScaledIndicesFit
  constructor
  · intro h i x hx hne
    exact h (i, x) (List.mk_mem_enum_iff_getElem?.2 hx) hne
  · intro h p hp hne
    exact h p.1 p.2 (List.mem_enum_iff_getElem?.1 hp) hne

/-- When the scaled indices of the nonzero bins fit in 64 bits, the records
hold the scaled indices `i * bin_size` themselves. -/
theorem records_sparse_items_fit (bs : Nat) (hist : List Nat)
    (hfit : ScaledIndicesFit bs hist) :
    records (sparse_items bs 0 hist) =
      ((hist.enum).filter (fun p => p.2 != 0)).map (fun p => (p.1 * bs, p.2)) := by
  rw [records_sparse_items]
  apply List.map_congr_left
  intro p hp
  have hp' := List.mem_filter.1 hp
  have hne : p.2 ≠ 0 := by simpa using hp'.2
  have := hfit p hp'.1 hne
  rw [Nat.mod_eq_of_lt this.2]

theorem scaledIndicesFit_replicate (bs n : Nat) : ScaledIndicesFit bs (List.replicate n 0) := by
  rw [scaledIndicesFit_iff]
  intro i x hx hne
  rw [List.getElem?_replicate] at hx
  split at hx
  · simp only [Option.some.injEq] at hx
    exact absurd hx.symm hne
  · simp at hx

theorem scaledIndicesFit_set (bs : Nat) (hist : List Nat) (k v : Nat)
    (h : ScaledIndicesFit bs hist) (hv : 0 < bs ∧ k * bs < 2 ^ 64) :
    ScaledIndicesFit bs (hist.set k v) := by
  rw [scaledIndicesFit_iff] at h ⊢
  intro i x hx hne
  by_cases hik : k = i
  · subst hik; exact hv
  · rw [List.getElem?_set_ne hik] at hx
    exact h i x hx hne

theorem wrapInt64_range (z : Int) : -2 ^ 63 ≤ wrapInt64 z ∧ wrapInt64 z < 2 ^ 63 := by
  have := toUInt64_cast z
  unfold wrapInt64 toInt64
  split <;> omega

/-- With a negative residual, the loop of `Histogram__adjust_first_buckets`
never turns an empty bin into a nonzero one. -/
theorem adjust_bins_nonzero_neg (l : List Nat) (t : Int) (ht1 : -2 ^ 63 ≤ t) (ht2 : t < 0) :
    ∀ (i x : Nat), (adjust_bins l t).1[i]? = some x → x ≠ 0 →
      ∃ y, l[i]? = some y ∧ y ≠ 0 := by
  induction l generalizing t with
  | nil => intro i x hx; simp [adjust_bins] at hx
  | cons a xs ih =>
    intro i x hx hne
    simp only [adjust_bins] at hx
    split at hx
    · rename_i hc
      cases i with
      | zero =>
        simp only [List.getElem?_cons_zero, Option.some.injEq] at hx
        exact absurd hx.symm hne
      | succ k =>
        simp only [List.getElem?_cons_succ] at hx
        have hneg : wrapInt64 (t + toInt64 a) < 0 := by rw [Int.add_comm]; exact hc
        obtain ⟨y, hy, hy0⟩ := ih _ (wrapInt64_range _).1 hneg k x hx hne
        exact ⟨y, by simpa using hy, hy0⟩
    · rename_i hc
      cases i with
      | zero =>
        refine ⟨a, by simp, ?_⟩
        rintro rfl
        apply hc
        have e : toInt64 0 = 0 := by unfold toInt64; simp
        rw [e, Int.zero_add, wrapInt64_of_range ht1 (by omega)]
        exact ht2
      | succ k =>
        simp only [List.getElem?_cons_succ] at hx
        exact ⟨x, by simpa using hx, hne⟩

/-- Whatever the adjustment, the loop of `Histogram__adjust_first_buckets`
turns no empty bin other than bin 0 into a nonzero one. -/
theorem adjust_bins_nonzero (l : List Nat) (t : Int) :
    ∀ (i x : Nat), (adjust_bins l t).1[i]? = some x → x ≠ 0 →
      i = 0 ∨ ∃ y, l[i]? = some y ∧ y ≠ 0 := by
  intro i x hx hne
  cases l with
  | nil => simp [adjust_bins] at hx
  | cons a xs =>
    cases i with
    | zero => exact Or.inl rfl
    | succ k =>
      right
      simp only [adjust_bins] at hx
      split at hx
      · rename_i hc
        simp only [List.getElem?_cons_succ] at hx
        have hneg : wrapInt64 (t + toInt64 a) < 0 := by rw [Int.add_comm]; exact hc
        obtain ⟨y, hy, hy0⟩ := adjust_bins_nonzero_neg xs _ (wrapInt64_range _).1 hneg k x hx hne
        exact ⟨y, by simpa using hy, hy0⟩
      · simp only [List.getElem?_cons_succ] at hx
        exact ⟨x, by simpa using hx, hne⟩

theorem scaledIndicesFit_adjust (bs : Nat) (hist : List Nat) (t : Int)
    (h : ScaledIndicesFit bs hist) (hb : 0 < bs) :
    ScaledIndicesFit bs (adjust_bins hist t).1 := by
  rw [scaledIndicesFit_iff] at h ⊢
  intro i x hx hne
  rcases adjust_bins_nonzero hist t i x hx hne with rfl | ⟨y, hy, hy0⟩
  · exact ⟨hb, by simp⟩
  · exact h i y hy hy0

/-- One call of any mutating operation keeps a histogram initialised, keeps
`num_bins` and `bin_size`, and keeps the scaled indices of the nonzero bins
within 64 bits. -/
theorem call_fit (m : Histogram) (op : Op) (hi : m.Initialised)
    (hf : ScaledIndicesFit m.bin_size m.bins) :
    ∃ r m', op.call (some m) = some (r, some m') ∧ m'.Initialised ∧
      ScaledIndicesFit m'.bin_size m'.bins ∧
      m'.num_bins = m.num_bins ∧ m'.bin_size = m.bin_size := by
  obtain ⟨hist, hh, hlen, hb⟩ := fields_of_invariant m hi
  have hf0 := hf
  rw [hb] at hf
  cases op with
  | insert_finite index =>
    by_cases hz : m.bin_size = 0
    · refine ⟨false, m, ?_, hi, hf0, rfl, rfl⟩
      simp only [Op.call, Histogram__insert_finite, hh, if_pos hz]
    · obtain ⟨h1, h2⟩ := insert_finite_eval m hist index hh hlen (Nat.pos_of_ne_zero hz)
      by_cases hlt : index < (m.num_bins * m.bin_size) % 2 ^ 64
      · obtain ⟨x, hx, he⟩ := h1 hlt
        have hk : index / m.bin_size * m.bin_size < 2 ^ 64 := by
          have h3 := Nat.div_mul_le_self index m.bin_size
          have h4 : (m.num_bins * m.bin_size) % 2 ^ 64 < 2 ^ 64 := Nat.mod_lt _ (by norm_num)
          omega
        refine ⟨true, _, he, ?_, ?_, rfl, rfl⟩
        · simp [Histogram.Initialised, Histogram.bins, hlen]
        · simp only [Histogram.bins, Option.getD_some]
          exact scaledIndicesFit_set _ _ _ _ hf ⟨Nat.pos_of_ne_zero hz, hk⟩
      · refine ⟨true, _, h2 hlt, ?_, ?_, rfl, rfl⟩
        · simp [Histogram.Initialised, Histogram.bins, hh, hlen]
        · simp only [Histogram.bins, hh, Option.getD_some]
          exact hf
  | insert_scaled_finite index scale =>
    by_cases hz : m.bin_size = 0
    · refine ⟨false, m, ?_, hi, hf0, rfl, rfl⟩
      simp only [Op.call, Histogram__insert_scaled_finite, hh, if_pos hz]
    · obtain ⟨h1, h2⟩ :=
        insert_scaled_finite_eval m hist index scale hh hlen (Nat.pos_of_ne_zero hz)
      by_cases hlt : (scale * index) % 2 ^ 64 < (m.num_bins * m.bin_size) % 2 ^ 64
      · obtain ⟨x, hx, he⟩ := h1 hlt
        have hk : (scale * index) % 2 ^ 64 / m.bin_size * m.bin_size < 2 ^ 64 := by
          have h3 := Nat.div_mul_le_self ((scale * index) % 2 ^ 64) m.bin_size
          have h4 : (scale * index) % 2 ^ 64 < 2 ^ 64 := Nat.mod_lt _ (by norm_num)
          omega
        refine ⟨true, _, he, ?_, ?_, rfl, rfl⟩
        · simp [Histogram.Initialised, Histogram.bins, hlen]
        · simp only [Histogram.bins, Option.getD_some]
          exact scaledIndicesFit_set _ _ _ _ hf ⟨Nat.pos_of_ne_zero hz, hk⟩
      · refine ⟨true, _, h2 hlt, ?_, ?_, rfl, rfl⟩
        · simp [Histogram.Initialised, Histogram.bins, hh, hlen]
        · simp only [Histogram.bins, hh, Option.getD_some]
          exact hf
  | insert_infinite =>
    refine ⟨true, _, (insert_infinite_eval m hist 0 hh).1, ?_, ?_, rfl, rfl⟩
    · simp [Histogram.Initialised, Histogram.bins, hh, hlen]
    · simp only [Histogram.bins, hh, Option.getD_some]
      exact hf
  | insert_scaled_infinite scale =>
    refine ⟨true, _, (insert_infinite_eval m hist scale hh).2, ?_, ?_, rfl, rfl⟩
    · simp [Histogram.Initialised, Histogram.bins, hh, hlen]
    · simp only [Histogram.bins, hh, Option.getD_some]
      exact hf
  | adjust_first_buckets adjustment =>
    by_cases hz : m.num_bins < 1 ∨ m.bin_size < 1
    · refine ⟨false, m, ?_, hi, hf0, rfl, rfl⟩
      simp only [Op.call, Histogram__adjust_first_buckets, if_pos hz]
    · have he := adjust_first_buckets_eval m hist adjustment hh hlen (by omega) (by omega)
      refine ⟨_, _, he, ?_, ?_, rfl, rfl⟩
      · simp [Histogram.Initialised, Histogram.bins, hlen, adjust_bins_length]
      · simp only [Histogram.bins, Option.getD_some]
        exact scaledIndicesFit_adjust _ _ _ hf (by omega)

theorem run_ops_fit (ops : List Op) (m : Histogram) (hi : m.Initialised)
    (hf : ScaledIndicesFit m.bin_size m.bins) :
    ∃ m', run_ops (some m) ops = some (some m') ∧ m'.Initialised ∧
      ScaledIndicesFit m'.bin_size m'.bins ∧
      m'.num_bins = m.num_bins ∧ m'.bin_size = m.bin_size := by
  induction ops generalizing m with
  | nil => exact ⟨m, rfl, hi, hf, rfl, rfl⟩
  | cons op ops ih =>
    obtain ⟨r, m1, hc, hi1, hf1, hn1, hb1⟩ := call_fit m op hi hf
    obtain ⟨m2, h2, hi2, hf2, hn2, hb2⟩ := ih m1 hi1 hf1
    exact ⟨m2, by simp only [run_ops, hc, h2], hi2, hf2, hn2.trans hn1, hb2.trans hb1⟩

/-- Evaluation of `Histogram__save_sparse` on an initialised histogram with
`num_bins > 0` when `fopen` and every `fwrite` succeed: it returns what
`fclose` reports and writes the pairs `(i * bin_size mod 2^64, bins[i])` of the
nonzero bins, by increasing index. -/
theorem save_sparse_eval (env : FileEnv) (m : Histogram) (hist : List Nat)
    (hh : m.histogram = some hist) (hl : hist.length = m.num_bins)
    (hnb : 0 < m.num_bins) (hopen : env.fopen_ok = true)
    (hw : ∀ n, env.fwrite_ok n = true) :
    Histogram__save_sparse env (some m) =
      some (env.fclose_ok, sparse_items m.bin_size 0 hist) := by
  have hloop := save_sparse_loop_eq env m.bin_size hist [] [] hw
  simp only [List.length_nil, List.nil_append, hl] at hloop
  have hnb0 : m.num_bins ≠ 0 := Nat.pos_iff_ne_zero.1 hnb
  simp only [Histogram__save_sparse, hh, if_neg hnb0, hopen, Bool.true_eq_false,
    if_false, hloop]
  cases env.fclose_ok <;> simp

/-- C12. For every histogram produced by a successful `Histogram__init`
followed by any sequence of insert and adjust calls (it is initialised and has
`num_bins > 0`), when `fopen` and every `fwrite` succeed
`Histogram__save_sparse` returns what `fclose` reports and writes whole
`(u64, u64)` records only, which are exactly the pairs
`(i * bin_size, bins[i])` for the indices `i` with `bins[i] != 0`, in
increasing order: one record per nonzero bin, none for a zero bin, nothing for
`infinity` or `false_infinity`. The bins are recovered from the records and
`bin_size`: bin `i` is the frequency of the record with scaled index
`i * bin_size`, or 0 when there is none. -/
theorem save_sparse_spec (env : FileEnv) (calloc_ok : Bool) (m0 : Histogram)
    (nb bs : Nat) (ops : List Op)
    (hinit : (Histogram__init calloc_ok (some m0) nb bs).1 = true)
    (hopen : env.fopen_ok = true) (hw : ∀ n, env.fwrite_ok n = true) :
    ∃ m hist out,
      run_ops (Histogram__init calloc_ok (some m0) nb bs).2 ops = some (some m) ∧
      m.histogram = some hist ∧ hist.length = m.num_bins ∧ 0 < m.num_bins ∧
      m.bin_size = bs ∧
      Histogram__save_sparse env (some m) = some (env.fclose_ok, out) ∧
      out.length = 2 * (records out).length ∧
      records out = ((hist.enum).filter (fun p => p.2 != 0)).map
        (fun p => (p.1 * bs, p.2)) ∧
      (∀ i, i < m.num_bins → ((records out).lookup (i * bs)).getD 0 = hist.getD i 0) := by
  obtain ⟨m1, h1, hi1, -, hn1, hb1, hpos⟩ :=
    init_establishes calloc_ok m0 nb bs (Histogram__init calloc_ok (some m0) nb bs).2
      (Prod.ext hinit rfl)
  have hbins1 : m1.bins = List.replicate nb 0 := by
    have hcalc : Histogram__init calloc_ok (some m0) nb bs =
        (true, some ⟨some (List.replicate nb 0), nb, bs, 0, 0, 0⟩) := by
      have hnb0 : nb ≠ 0 := Nat.pos_iff_ne_zero.1 hpos
      unfold Histogram__init at hinit ⊢
      simp only [if_neg hnb0] at hinit ⊢
      cases calloc_ok
      · simp at hinit
      · simp
    rw [hcalc] at h1
    simp only [Option.some.injEq] at h1
    rw [← h1]
    rfl
  have hf1 : ScaledIndicesFit m1.bin_size m1.bins := by
    rw [hbins1]; exact scaledIndicesFit_replicate _ _
  obtain ⟨m, hrun, hi, hf, hn, hb⟩ := run_ops_fit ops m1 hi1 hf1
  obtain ⟨hist, hh, hlen, hbins⟩ := fields_of_invariant m hi
  have hnb : 0 < m.num_bins := by rw [hn, hn1]; exact hpos
  have hbs : m.bin_size = bs := hb.trans hb1
  rw [hbins, hbs] at hf
  refine ⟨m, hist, sparse_items bs 0 hist, by rw [h1]; exact hrun, hh, hlen, hnb, hbs,
    ?_, sparse_items_length _ _ _, records_sparse_items_fit bs hist hf, ?_⟩
  · rw [save_sparse_eval env m hist hh hlen hnb hopen hw, hbs]
  · intro i hi'
    have hfit := (scaledIndicesFit_iff bs hist).1 hf
    have hlk := lookup_sparse_items bs hist 0 i
      (fun k x hx hne => by rw [Nat.zero_add]; exact hfit k x hx hne)
    rw [hlk]
    by_cases hz : hist.getD i 0 = 0
    · have hc : ¬ (0 ≤ i ∧ i < 0 + hist.length ∧ hist.getD (i - 0) 0 ≠ 0) :=
        fun h => h.2.2 (by rw [Nat.sub_zero]; exact hz)
      rw [if_neg hc, Option.getD_none]
      exact hz.symm
    · have hc : 0 ≤ i ∧ i < 0 + hist.length ∧ hist.getD (i - 0) 0 ≠ 0 :=
        ⟨Nat.zero_le _, by rw [Nat.zero_add, hlen]; exact hi', by rw [Nat.sub_zero]; exact hz⟩
      rw [if_pos hc, Option.getD_some, Nat.sub_zero]

/-- Witness for C12: `init(4, 1)` followed by `insert_finite` at 0, 0 and 3
gives bins `[2, 0, 0, 1]`, and the sparse save writes exactly the records
`(0, 2)` and `(3, 1)`. -/
theorem save_sparse_spec_witness :
    (∃ m hist out,
      run_ops (Histogram__init true (some ⟨none, 0, 0, 0, 0, 0⟩) 4 1).2
        [.insert_finite 0, .insert_finite 0, .insert_finite 3] = some (some m) ∧
      m.histogram = some hist ∧ hist.length = m.num_bins ∧ 0 < m.num_bins ∧
      m.bin_size = 1 ∧
      Histogram__save_sparse FileEnv.all_ok (some m) = some (true, out) ∧
      out.length = 2 * (records out).length ∧
      records out = ((hist.enum).filter (fun p => p.2 != 0)).map
        (fun p => (p.1 * 1, p.2)) ∧
      (∀ i, i < m.num_bins → ((records out).lookup (i * 1)).getD 0 = hist.getD i 0)) ∧
    run_ops (Histogram__init true (some ⟨none, 0, 0, 0, 0, 0⟩) 4 1).2
        [.insert_finite 0, .insert_finite 0, .insert_finite 3] =
      some (some ⟨some [2, 0, 0, 1], 4, 1, 0, 0, 3⟩) ∧
    (Histogram__save_sparse FileEnv.all_ok
        (some ⟨some [2, 0, 0, 1], 4, 1, 0, 0, 3⟩)).map (fun r => records r.2) =
      some [(0, 2), (3, 1)] :=
  ⟨save_sparse_spec FileEnv.all_ok true ⟨none, 0, 0, 0, 0, 0⟩ 4 1
    [.insert_finite 0, .insert_finite 0, .insert_finite 3] rfl rfl (fun _ => rfl),
    by decide, by decide⟩

/-! ## Validation and initialisation -/

/-- Evaluation of `Histogram__validate` on an initialised histogram with at
least one bin and a positive bin size. -/
theorem validate_eval (m : Histogram) (hist : List Nat)
    (hh : m.histogram = some hist) (hl : hist.length = m.num_bins)
    (hnb : 0 < m.num_bins) (hbs : 0 < m.bin_size) :
    Histogram__validate (some m) =
      some (decide ((hist.sum + m.false_infinity + m.infinity) % 2 ^ 64 = m.running_sum)) := by
  have hloop := validate_loop_eq hist [] 0 (by norm_num)
  simp only [List.length_nil, List.nil_append, Nat.zero_add, hl] at hloop
  have h1 : ¬ (m.histogram = none ∧ m.num_bins ≠ 0) := by simp [hh]
  have h2 : ¬ (m.num_bins = 0 ∨ m.bin_size = 0) := by omega
  have e : (hist.sum % 2 ^ 64 + m.false_infinity) % 2 ^ 64 =
      (hist.sum + m.false_infinity) % 2 ^ 64 := by omega
  have e' : ((hist.sum + m.false_infinity) % 2 ^ 64 + m.infinity) % 2 ^ 64 =
      (hist.sum + m.false_infinity + m.infinity) % 2 ^ 64 := by omega
  unfold Histogram__validate
  simp only
  rw [if_neg h1, if_neg h2]
  simp only [hh, hloop, e, e']
  by_cases hs : (hist.sum + m.false_infinity + m.infinity) % 2 ^ 64 = m.running_sum
  · rw [if_neg (fun h => h hs), decide_eq_true hs]
  · rw [if_pos hs, decide_eq_false hs]

/-- C11 (as amended). For every non-null histogram value:
(1) when the bin array is `NULL` and `num_bins != 0`, `Histogram__validate`
returns false;
(2) otherwise, when `num_bins == 0` or `bin_size == 0`, it returns true without
looking at the counters;
(3) when the array is allocated with `num_bins > 0` entries and
`bin_size > 0`, it returns true if and only if the sum of all bins plus
`false_infinity` plus `infinity` (64-bit unsigned) equals `running_sum`. -/
theorem validate_spec (m : Histogram) :
    (m.histogram = none ∧ m.num_bins ≠ 0 → Histogram__validate (some m) = some false) ∧
    (¬ (m.histogram = none ∧ m.num_bins ≠ 0) → (m.num_bins = 0 ∨ m.bin_size = 0) →
      Histogram__validate (some m) = some true) ∧
    (∀ hist, m.histogram = some hist → hist.length = m.num_bins →
      0 < m.num_bins → 0 < m.bin_size →
      ∃ r, Histogram__validate (some m) = some r ∧
        (r = true ↔
          (hist.sum + m.false_infinity + m.infinity) % 2 ^ 64 = m.running_sum)) := by
  refine ⟨fun h => ?_, fun h1 h2 => ?_, fun hist hh hl hnb hbs => ?_⟩
  · simp only [Histogram__validate, if_pos h]
  · simp only [Histogram__validate, if_neg h1, if_pos h2]
  · exact ⟨_, validate_eval m hist hh hl hnb hbs, by simp⟩

/-- Witness for C11: bins `[1, 2]` with `false_infinity = 3`, `infinity = 4`
validate against `running_sum = 10`. -/
theorem validate_spec_witness :
    ∃ r, Histogram__validate (some ⟨some [1, 2], 2, 1, 3, 4, 10⟩) = some r ∧
      (r = true ↔ (([1, 2] : List Nat).sum + 3 + 4) % 2 ^ 64 = 10) :=
  (validate_spec ⟨some [1, 2], 2, 1, 3, 4, 10⟩).2.2 [1, 2] rfl rfl (by decide) (by decide)

/-- C11 (counterexample to the claim as stated). A histogram with
`bin_size == 0` whose counters add up to 1 while `running_sum` is 5 validates,
and so does one with `num_bins == 0`, `false_infinity = 3` and
`running_sum = 0`. -/
theorem validate_skips_empty :
    Histogram__validate (some ⟨some [1, 0], 2, 0, 0, 0, 5⟩) = some true ∧
    (([1, 0] : List Nat).sum + 0 + 0) % 2 ^ 64 ≠ 5 ∧
    Histogram__validate (some ⟨some [], 0, 1, 3, 0, 0⟩) = some true ∧
    (([] : List Nat).sum + 3 + 0) % 2 ^ 64 ≠ 0 := by
  decide

/-- C13 (as amended). `Histogram__init` returns false for a null state, for
`num_bins == 0` and when `calloc` fails, and true in every other case, whatever
`bin_size` is: a true return implies `num_bins > 0` and leaves `num_bins` zeroed
bins and the given `bin_size`, all counters 0. -/
theorem init_spec (calloc_ok : Bool) (me : Option Histogram) (num_bins bin_size : Nat) :
    ((Histogram__init calloc_ok me num_bins bin_size).1 = true ↔
      (me ≠ none ∧ num_bins ≠ 0 ∧ calloc_ok = true)) ∧
    ((Histogram__init calloc_ok me num_bins bin_size).1 = true →
      0 < num_bins ∧
      (Histogram__init calloc_ok me num_bins bin_size).2 =
        some ⟨some (List.replicate num_bins 0), num_bins, bin_size, 0, 0, 0⟩) := by
  cases me with
  | none => simp [Histogram__init]
  | some m =>
    by_cases hnb : num_bins = 0
    · simp [Histogram__init, hnb]
    · cases calloc_ok
      · simp [Histogram__init, hnb]
      · simp [Histogram__init, hnb, Nat.pos_of_ne_zero hnb]

/-- Witness for C13: `init` with 3 bins and bin size 7. -/
theorem init_spec_witness :
    (0 : Nat) < 3 ∧
    (Histogram__init true (some ⟨none, 9, 9, 9, 9, 9⟩) 3 7).2 =
      some ⟨some (List.replicate 3 0), 3, 7, 0, 0, 0⟩ :=
  (init_spec true (some ⟨none, 9, 9, 9, 9, 9⟩) 3 7).2 (by decide)

/-- C13 (counterexample to the claim as stated). `Histogram__init` with
`num_bins = 4` and `bin_size = 0` returns true and stores the zero bin size. -/
theorem init_accepts_zero_bin_size :
    Histogram__init true (some ⟨none, 0, 0, 0, 0, 0⟩) 4 0 =
      (true, some ⟨some [0, 0, 0, 0], 4, 0, 0, 0, 0⟩) := by
  decide

/-- C16. Bin indexing is in bounds. For `bin_size > 0` (and any `num_bins`, in
particular `num_bins > 0`), whatever `index` and `scale` are and whether or not `num_bins * bin_size` or
`scale * index` wraps modulo `2^64`: when `Histogram__insert_finite` takes the
bin branch the position `index / bin_size` is below `num_bins`, and when
`Histogram__insert_scaled_finite` takes it the position
`(scale * index mod 2^64) / bin_size` is below `num_bins`; on a histogram whose
array has `num_bins` entries the call then writes that entry and no other. -/
theorem bin_index_in_bounds (m : Histogram) (index scale : Nat)
    (hbs : 0 < m.bin_size) :
    (index < (m.num_bins * m.bin_size) % 2 ^ 64 → index / m.bin_size < m.num_bins) ∧
    ((scale * index) % 2 ^ 64 < (m.num_bins * m.bin_size) % 2 ^ 64 →
      (scale * index) % 2 ^ 64 / m.bin_size < m.num_bins) ∧
    (∀ hist, m.histogram = some hist → hist.length = m.num_bins →
      (index < (m.num_bins * m.bin_size) % 2 ^ 64 →
        ∃ x, hist[index / m.bin_size]? = some x ∧
          Histogram__insert_finite (some m) index =
            some (true, some { m with
              histogram := some (hist.set (index / m.bin_size) ((x + 1) % 2 ^ 64))
              running_sum := (m.running_sum + 1) % 2 ^ 64 })) ∧
      ((scale * index) % 2 ^ 64 < (m.num_bins * m.bin_size) % 2 ^ 64 →
        ∃ x, hist[(scale * index) % 2 ^ 64 / m.bin_size]? = some x ∧
          Histogram__insert_scaled_finite (some m) index scale =
            some (true, some { m with
              histogram := some
                (hist.set ((scale * index) % 2 ^ 64 / m.bin_size) ((x + scale) % 2 ^ 64))
              running_sum := (m.running_sum + scale) % 2 ^ 64 }))) := by
  refine ⟨div_lt_num_bins, div_lt_num_bins, fun hist hh hl => ?_⟩
  exact ⟨(insert_finite_eval m hist index hh hl hbs).1,
    (insert_scaled_finite_eval m hist index scale hh hl hbs).1⟩

/-- Witness for C16: with 3 bins of size `2^63` the product wraps to `2^63`;
index `2^63 - 1` takes the bin branch and lands in bin 0. -/
theorem bin_index_in_bounds_witness :
    (2 ^ 63 - 1) / 2 ^ 63 < 3 :=
  (bin_index_in_bounds ⟨some [0, 0, 0], 3, 2 ^ 63, 0, 0, 0⟩ (2 ^ 63 - 1) 1
    (by decide)).1 (by decide)

/-! ## The trace runner -/

theorem recorded_access_func {ω : Type} (c : RunnerCalls ω) (s : ω × List Event) (key : Nat) :
    c.recorded.access_func s key =
      ((c.access_func s.1 key).1,
        ((c.access_func s.1 key).2, s.2 ++ [Event.access key (c.access_func s.1 key).1])) :=
  rfl

theorem recorded_postprocess_func {ω : Type} (c : RunnerCalls ω) (s : ω × List Event) :
    c.recorded.postprocess_func s =
      ((c.postprocess_func s.1).1,
        ((c.postprocess_func s.1).2, s.2 ++ [Event.postprocess (c.postprocess_func s.1).1])) :=
  rfl

theorem recorded_hist_func {ω : Type} (c : RunnerCalls ω) (s : ω × List Event) :
    c.recorded.hist_func s =
      ((c.hist_func s.1).1, ((c.hist_func s.1).2, s.2 ++ [Event.hist (c.hist_func s.1).1])) :=
  rfl

theorem recorded_destroy_func {ω : Type} (c : RunnerCalls ω) (s : ω × List Event) :
    c.recorded.destroy_func s = (c.destroy_func s.1, s.2 ++ [Event.destroy]) :=
  rfl

theorem recorded_mrc_init {ω : Type} (c : RunnerCalls ω) (s : ω × List Event) :
    c.recorded.MissRateCurve__init_from_histogram s =
      ((c.MissRateCurve__init_from_histogram s.1).1,
        ((c.MissRateCurve__init_from_histogram s.1).2,
          s.2 ++ [Event.mrc_init (c.MissRateCurve__init_from_histogram s.1).1])) :=
  rfl

theorem recorded_hist_save {ω : Type} (c : RunnerCalls ω) (s : ω × List Event) (path : String) :
    c.recorded.Histogram__save s path =
      ((c.Histogram__save s.1 path).1,
        ((c.Histogram__save s.1 path).2,
          s.2 ++ [Event.hist_save (c.Histogram__save s.1 path).1])) :=
  rfl

theorem recorded_mrc_save {ω : Type} (c : RunnerCalls ω) (s : ω × List Event) (path : String) :
    c.recorded.MissRateCurve__save s path =
      ((c.MissRateCurve__save s.1 path).1,
        ((c.MissRateCurve__save s.1 path).2,
          s.2 ++ [Event.mrc_save (c.MissRateCurve__save s.1 path).1])) :=
  rfl

theorem recorded_mrc_destroy {ω : Type} (c : RunnerCalls ω) (s : ω × List Event) :
    c.recorded.MissRateCurve__destroy s =
      (c.MissRateCurve__destroy s.1, s.2 ++ [Event.mrc_destroy]) :=
  rfl

/-- The access loop on the recording callbacks: the state is the one the
plain callbacks give, and what is appended to the journal is one
`access_func` call per record, with the key of that record, in trace order. -/
theorem access_loop_recorded {ω : Type} (c : RunnerCalls ω) (trace : List TraceItem)
    (s : ω) (l : List Event) :
    ∃ evs, access_loop c.recorded trace (s, l) = (access_loop c trace s, l ++ evs) ∧
      evs.filterMap Event.estimator_call =
        trace.map (fun item => EstimatorCall.access item.key) ∧
      ∀ e ∈ evs, ∃ key ret, e = Event.access key ret := by
  induction trace generalizing s l with
  | nil => exact ⟨[], by simp [access_loop], rfl, by simp⟩
  | cons item rest ih =>
    obtain ⟨evs, h1, h2, h3⟩ := ih (c.access_func s item.key).2
      (l ++ [Event.access item.key (c.access_func s item.key).1])
    refine ⟨Event.access item.key (c.access_func s item.key).1 :: evs, ?_, ?_, ?_⟩
    · simp only [access_loop, recorded_access_func]
      rw [h1, List.append_assoc, List.singleton_append]
    · simp only [List.filterMap_cons, Event.estimator_call, List.map_cons, h2]
    · intro e he
      simp only [List.mem_cons] at he
      rcases he with rfl | he
      · exact ⟨_, _, rfl⟩
      · exact h3 e he

/-- A run of `trace_runner` on the recording callbacks, case by case on what
`hist_func` and `MissRateCurve__init_from_histogram` return: it returns the
flag and reaches the state of the plain run, and its journal is `pre` (the
access loop and the `postprocess_func` call) followed by the calls listed. -/
theorem trace_runner_recorded {ω : Type} (c : RunnerCalls ω) (args : RunnerArguments)
    (s : ω) (trace : List TraceItem) :
    ∃ pre,
      (∀ e ∈ pre, (∃ key ret, e = Event.access key ret) ∨ (∃ ret, e = Event.postprocess ret)) ∧
      pre.filterMap Event.estimator_call =
        trace.map (fun item => EstimatorCall.access item.key) ++ [EstimatorCall.postprocess] ∧
      (((c.hist_func (c.postprocess_func (access_loop c trace s)).2).1 = false ∧
          (trace_runner c args s trace).1 = false ∧
          trace_runner c.recorded args (s, []) trace =
            (false, ((trace_runner c args s trace).2,
              pre ++ [Event.hist false, Event.destroy, Event.mrc_destroy]))) ∨
        ((c.hist_func (c.postprocess_func (access_loop c trace s)).2).1 = true ∧
          (c.MissRateCurve__init_from_histogram
            (c.hist_func (c.postprocess_func (access_loop c trace s)).2).2).1 = false ∧
          (trace_runner c args s trace).1 = false ∧
          trace_runner c.recorded args (s, []) trace =
            (false, ((trace_runner c args s trace).2,
              pre ++ [Event.hist true, Event.mrc_init false, Event.destroy,
                Event.mrc_destroy]))) ∨
        ((c.hist_func (c.postprocess_func (access_loop c trace s)).2).1 = true ∧
          (c.MissRateCurve__init_from_histogram
            (c.hist_func (c.postprocess_func (access_loop c trace s)).2).2).1 = true ∧
          (trace_runner c args s trace).1 = true ∧
          ∃ r1 r2, trace_runner c.recorded args (s, []) trace =
            (true, ((trace_runner c args s trace).2,
              pre ++ [Event.hist true, Event.mrc_init true] ++
                (if args.hist_path = none then [] else [Event.hist_save r1]) ++
                (if args.mrc_path = none then [] else [Event.mrc_save r2]) ++
                [Event.destroy, Event.mrc_destroy])))) := by
  obtain ⟨evs, hloop, hfm, hall⟩ := access_loop_recorded c trace s []
  rw [List.nil_append] at hloop
  refine ⟨evs ++ [Event.postprocess (c.postprocess_func (access_loop c trace s)).1], ?_, ?_, ?_⟩
  · intro e he
    simp only [List.mem_append, List.mem_singleton] at he
    rcases he with he | he
    · exact Or.inl (hall e he)
    · exact Or.inr ⟨_, he⟩
  · simp only [List.filterMap_append, hfm, List.filterMap_cons, Event.estimator_call,
      List.filterMap_nil]
  · cases hh : (c.hist_func (c.postprocess_func (access_loop c trace s)).2).1
    · left
      refine ⟨rfl, ?_, ?_⟩
      · simp only [trace_runner, hh, if_true]
      · simp only [trace_runner, hloop, recorded_postprocess_func, recorded_hist_func, recorded_destroy_func,
            recorded_mrc_init, recorded_hist_save, recorded_mrc_save, recorded_mrc_destroy, hh, if_true, List.append_assoc,
          List.singleton_append, List.cons_append, List.nil_append]
    · right
      cases hm : (c.MissRateCurve__init_from_histogram
          (c.hist_func (c.postprocess_func (access_loop c trace s)).2).2).1
      · left
        refine ⟨rfl, rfl, ?_, ?_⟩
        · simp only [trace_runner, hh, hm, if_true, Bool.true_eq_false, if_false]
        · simp only [trace_runner, hloop, recorded_postprocess_func, recorded_hist_func, recorded_destroy_func,
            recorded_mrc_init, recorded_hist_save, recorded_mrc_save, recorded_mrc_destroy, hh, hm, if_true,
            Bool.true_eq_false, if_false, List.append_assoc,
            List.singleton_append, List.cons_append, List.nil_append]
      · right
        refine ⟨rfl, rfl, ?_, ?_⟩
        · simp only [trace_runner, hh, hm, Bool.true_eq_false, if_false]
        · cases h1 : args.hist_path with
          | none =>
            cases h2 : args.mrc_path with
            | none =>
              refine ⟨true, true, ?_⟩
              simp [trace_runner, hloop, recorded_postprocess_func, recorded_hist_func,
                recorded_destroy_func, recorded_mrc_init, recorded_hist_save, recorded_mrc_save,
                recorded_mrc_destroy, hh, hm, h1, h2]
            | some p2 =>
              refine ⟨true, (c.MissRateCurve__save (c.MissRateCurve__init_from_histogram
                  (c.hist_func (c.postprocess_func (access_loop c trace s)).2).2).2 p2).1, ?_⟩
              simp [trace_runner, hloop, recorded_postprocess_func, recorded_hist_func,
                recorded_destroy_func, recorded_mrc_init, recorded_hist_save, recorded_mrc_save,
                recorded_mrc_destroy, hh, hm, h1, h2]
          | some p1 =>
            cases h2 : args.mrc_path with
            | none =>
              refine ⟨(c.Histogram__save (c.MissRateCurve__init_from_histogram
                  (c.hist_func (c.postprocess_func (access_loop c trace s)).2).2).2 p1).1, true, ?_⟩
              simp [trace_runner, hloop, recorded_postprocess_func, recorded_hist_func,
                recorded_destroy_func, recorded_mrc_init, recorded_hist_save, recorded_mrc_save,
                recorded_mrc_destroy, hh, hm, h1, h2]
            | some p2 =>
              refine ⟨(c.Histogram__save (c.MissRateCurve__init_from_histogram
                  (c.hist_func (c.postprocess_func (access_loop c trace s)).2).2).2 p1).1,
                (c.MissRateCurve__save (c.Histogram__save (c.MissRateCurve__init_from_histogram
                  (c.hist_func (c.postprocess_func (access_loop c trace s)).2).2).2 p1).2 p2).1, ?_⟩
              simp [trace_runner, hloop, recorded_postprocess_func, recorded_hist_func,
                recorded_destroy_func, recorded_mrc_init, recorded_hist_save, recorded_mrc_save,
                recorded_mrc_destroy, hh, hm, h1, h2]

/-- C14. For every trace, every set of callbacks and library functions
(whatever they return and however they change the state) and whichever output
paths are set: in the run of `trace_runner` on the recording callbacks, whose
journal is written by the callbacks themselves as they are called, the
estimator calls are, in this order, one `access_func` call per record of the
trace with the key of that record, in trace order (whatever the earlier
accesses returned), then one `postprocess_func` call, then one `hist_func`
call, then one `destroy_func` call, which is the last estimator call on every
path; recording changes neither the returned flag nor the state reached. -/
theorem trace_runner_calls {ω : Type} (c : RunnerCalls ω) (args : RunnerArguments)
    (s : ω) (trace : List TraceItem) :
    (trace_runner c.recorded args (s, []) trace).2.2.filterMap Event.estimator_call =
      trace.map (fun item => EstimatorCall.access item.key) ++
        [EstimatorCall.postprocess, EstimatorCall.hist, EstimatorCall.destroy] ∧
    (trace_runner c.recorded args (s, []) trace).1 = (trace_runner c args s trace).1 ∧
    (trace_runner c.recorded args (s, []) trace).2.1 = (trace_runner c args s trace).2 := by
  obtain ⟨pre, -, hfm, h⟩ := trace_runner_recorded c args s trace
  rcases h with ⟨-, hr, he⟩ | ⟨-, -, hr, he⟩ | ⟨-, -, hr, r1, r2, he⟩
  · rw [he, hr]
    simp [List.filterMap_append, hfm, Event.estimator_call]
  · rw [he, hr]
    simp [List.filterMap_append, hfm, Event.estimator_call]
  · rw [he, hr]
    by_cases h1 : args.hist_path = none <;> by_cases h2 : args.mrc_path = none <;>
      simp [List.filterMap_append, hfm, Event.estimator_call, h1, h2]

/-- Witness for C14: a run on two records whose second access fails and whose
`hist_func` fails; the journal shows both accesses, in order, and
`destroy_func` as the last estimator call. -/
theorem trace_runner_calls_witness :
    (trace_runner
        (⟨fun s key => (decide (key = 7), s + key), fun s => (true, s), fun s => (false, s),
        fun s => s, fun s => (true, s), fun s _ => (true, s), fun s _ => (true, s),
        fun s => s⟩ : RunnerCalls Nat).recorded
        ⟨some "hist.bin", none⟩ (0, []) [⟨7⟩, ⟨9⟩]).2.2.filterMap Event.estimator_call =
      [EstimatorCall.access 7, EstimatorCall.access 9, EstimatorCall.postprocess,
        EstimatorCall.hist, EstimatorCall.destroy] ∧
    (trace_runner
        (⟨fun s key => (decide (key = 7), s + key), fun s => (true, s), fun s => (false, s),
        fun s => s, fun s => (true, s), fun s _ => (true, s), fun s _ => (true, s),
        fun s => s⟩ : RunnerCalls Nat).recorded
        ⟨some "hist.bin", none⟩ (0, []) [⟨7⟩, ⟨9⟩]).2.2 =
      [Event.access 7 true, Event.access 9 false, Event.postprocess true, Event.hist false,
        Event.destroy, Event.mrc_destroy] :=
  ⟨(trace_runner_calls
      (⟨fun s key => (decide (key = 7), s + key), fun s => (true, s), fun s => (false, s),
        fun s => s, fun s => (true, s), fun s _ => (true, s), fun s _ => (true, s),
        fun s => s⟩ : RunnerCalls Nat)
      ⟨some "hist.bin", none⟩ 0 [⟨7⟩, ⟨9⟩]).1, by decide⟩

/-- C15. Failure policy of `trace_runner`, for every trace, every set of
callbacks and library functions, and every choice of output paths:
(1) it returns false if and only if the `hist_func` call returns false, or it
returns true and the `MissRateCurve__init_from_histogram` call that follows
returns false; so what `Histogram__save` and `MissRateCurve__save` return has
no bearing on the returned flag;
(2) when it returns false, neither `Histogram__save` nor
`MissRateCurve__save` is called;
(3) when it returns true, `Histogram__save` is called exactly when `hist_path`
is set and `MissRateCurve__save` exactly when `mrc_path` is set, whatever the
other save returns.
The calls are read off the journal that the recording callbacks write as they
are called. -/
theorem trace_runner_failure_policy {ω : Type} (c : RunnerCalls ω)
    (args : RunnerArguments) (s : ω) (trace : List TraceItem) :
    ((trace_runner c args s trace).1 = false ↔
      ((c.hist_func (c.postprocess_func (access_loop c trace s)).2).1 = false ∨
        ((c.hist_func (c.postprocess_func (access_loop c trace s)).2).1 = true ∧
          (c.MissRateCurve__init_from_histogram
            (c.hist_func (c.postprocess_func (access_loop c trace s)).2).2).1 = false))) ∧
    ((trace_runner c args s trace).1 = false →
      ∀ ret, Event.hist_save ret ∉ (trace_runner c.recorded args (s, []) trace).2.2 ∧
        Event.mrc_save ret ∉ (trace_runner c.recorded args (s, []) trace).2.2) ∧
    ((trace_runner c args s trace).1 = true →
      ((∃ ret, Event.hist_save ret ∈ (trace_runner c.recorded args (s, []) trace).2.2) ↔
        args.hist_path ≠ none) ∧
      ((∃ ret, Event.mrc_save ret ∈ (trace_runner c.recorded args (s, []) trace).2.2) ↔
        args.mrc_path ≠ none)) := by
  obtain ⟨pre, hpre, -, h⟩ := trace_runner_recorded c args s trace
  have n3 : ∀ b, Event.hist_save b ∉ pre := fun b hb => by
    rcases hpre _ hb with ⟨_, _, h⟩ | ⟨_, h⟩ <;> cases h
  have n4 : ∀ b, Event.mrc_save b ∉ pre := fun b hb => by
    rcases hpre _ hb with ⟨_, _, h⟩ | ⟨_, h⟩ <;> cases h
  rcases h with ⟨hh, hr, he⟩ | ⟨hh, hm, hr, he⟩ | ⟨hh, hm, hr, r1, r2, he⟩
  · rw [hr, he, hh]
    simp [n3, n4]
  · rw [hr, he, hh, hm]
    simp [n3, n4]
  · rw [hr, he, hh, hm]
    by_cases h1 : args.hist_path = none <;> by_cases h2 : args.mrc_path = none <;>
      simp [n3, n4, h1, h2]

/-- Witness for C15: callbacks whose `hist_func` fails make `trace_runner`
return false, with an output path set and every library call succeeding. -/
theorem trace_runner_failure_policy_witness :
    (trace_runner
      (⟨fun s key => (decide (key = 7), s + key), fun s => (true, s), fun s => (false, s),
        fun s => s, fun s => (true, s), fun s _ => (true, s), fun s _ => (true, s),
        fun s => s⟩ : RunnerCalls Nat)
      ⟨some "hist.bin", none⟩ 0 [⟨7⟩, ⟨9⟩]).1 = false :=
  (trace_runner_failure_policy
    (⟨fun s key => (decide (key = 7), s + key), fun s => (true, s), fun s => (false, s),
        fun s => s, fun s => (true, s), fun s _ => (true, s), fun s _ => (true, s),
        fun s => s⟩ : RunnerCalls Nat)
    ⟨some "hist.bin", none⟩ 0 [⟨7⟩, ⟨9⟩]).1.2 (Or.inl rfl)

/-! ## Printing a trace -/

theorem print_loop_eq (n i : Nat) : print_loop n i = List.range' i n := by
  induction n generalizing i with
  | zero => rfl
  | succ n ih => simp only [print_loop, ih, List.range'_succ]

/-- Evaluation of `run` on arguments accepted by
`parse_command_line_arguments` (`start >= 0`, `length > 0`) whose sum fits in
`gint64`, on a file that is mapped: it returns true and decodes the records
`start, ..., start + length - 1`, whatever the number of records in the file
and whether or not the range check logged its error. -/
theorem run_eval (a : CommandLineArguments) (bytes_per_trace_item num_bytes : Nat)
    (hb : bytes_per_trace_item ≠ 0) (hs : 0 ≤ a.start) (hl : 0 < a.length)
    (hsum : a.start + a.length < 2 ^ 63) :
    run (some a) bytes_per_trace_item (some num_bytes) =
      ⟨true,
        decide (a.start.toNat ≥ num_bytes / bytes_per_trace_item ∨
          a.start.toNat + a.length.toNat > num_bytes / bytes_per_trace_item),
        List.range' a.start.toNat a.length.toNat⟩ := by
  have e1 : toUInt64 a.start = a.start.toNat := by
    have := toUInt64_cast a.start
    omega
  have e2 : toUInt64 a.length = a.length.toNat := by
    have := toUInt64_cast a.length
    omega
  have e3 : wrapInt64 (a.start + a.length) = a.start + a.length :=
    wrapInt64_of_range (by omega) hsum
  have e4 : toUInt64 (a.start + a.length) - a.start.toNat = a.length.toNat := by
    have := toUInt64_cast (a.start + a.length)
    omega
  have e5 : (a.start.toNat + a.length.toNat) % 2 ^ 64 = a.start.toNat + a.length.toNat := by
    omega
  simp only [run, if_neg hb, e1, e2, e3, e4, e5, print_loop_eq]

/-- C17 (the code at the failing input). On a file of 75 bytes with 25-byte
records (3 records), `run` with `start = 2` and `length = 5` logs the range
error, then decodes and prints the records 2, 3, 4, 5 and 6, four of which lie
outside of the file, and returns true. -/
theorem run_reads_past_end :
    (75 : Nat) / 25 = 3 ∧
    run (some ⟨2, 5⟩) 25 (some 75) = ⟨true, true, [2, 3, 4, 5, 6]⟩ ∧
    ¬ (∀ i ∈ (run (some ⟨2, 5⟩) 25 (some 75)).decoded, i < 3) := by
  decide

end MRC
